import Mathlib

/-!
# muks: a modal terminal editor

A shallow embedding of `src/muks.c`: the line model (`insertChar`, `deleteChar`),
the per-line tokenizer (`update_line_syntax`), persistence (`loadFile`, `saveFile`),
the cursor clamp (`ensureCursorInBounds`) and the three key handlers
(`processNormalMode`, `processInsertMode`, `processCommandMode`), followed by the
properties established about them.

Conventions of the embedding.
* A C `char` is a `Char` with code below 256; `(char)ch` is `toChar ch`.
* `line->length` is `line.text.length`: the program keeps the text in a buffer of
  `length + 1` bytes whose last byte is NUL, and reads it through `length`
  everywhere except `fprintf("%s")`, `strlen` and `strcmp`, which stop at the first NUL (`cstr`).
* `line->syntax` is the heap block of `int`s itself, one list element per allocated cell; the
  program reads and writes only its first `line->length` cells (`classification`).
* `sizeof(int)` is 4: a `memset` with the byte `c` leaves `memsetInt c` in each cell.
* Array reads and writes outside the block are undefined behaviour in C; checked
  accessors return `none` there.
* `malloc`/`realloc` are taken to succeed (their failure paths call `exit`).
* `int` values are unbounded integers: every counter of the program is bounded by a
  line length or by the number of lines.
-/

namespace Muks

/-- The enum `SyntaxType` (muks.c:20-27). Its constants are `int` values, and the cells of
`line->syntax` are declared `int` (muks.c:33), so a cell can hold any `int`. -/
abbrev SyntaxType : Type := Int

/-- The enum constant `SYNTAX_NORMAL = 0` (muks.c:22). -/
def SYNTAX_NORMAL : SyntaxType := 0
/-- The enum constant `SYNTAX_KEYWORD` (muks.c:23). -/
def SYNTAX_KEYWORD : SyntaxType := 1
/-- The enum constant `SYNTAX_STRING` (muks.c:24). -/
def SYNTAX_STRING : SyntaxType := 2
/-- The enum constant `SYNTAX_COMMENT` (muks.c:25). -/
def SYNTAX_COMMENT : SyntaxType := 3
/-- The enum constant `SYNTAX_NUMBER` (muks.c:26). -/
def SYNTAX_NUMBER : SyntaxType := 4

/-- The value that `memset(p, c, n * sizeof(int))` leaves in each `int` cell: `memset` stores
the byte `(unsigned char)c` in every byte, so the four bytes of a cell are all equal to it
(`0x01010101 = 16843009` times the byte, read as a signed 32-bit `int`). For `c = 0` this is 0,
for `c = SYNTAX_COMMENT` it is `0x03030303 = 50529027`. -/
def memsetInt (c : Int) : Int :=
  if (c % 256) * 16843009 < 2147483648 then (c % 256) * 16843009
  else (c % 256) * 16843009 - 4294967296

/-- The enum `EditorMode` (muks.c:13-18). -/
inductive EditorMode where
  | MODE_NORMAL
  | MODE_COMMAND
  | MODE_INSERT
  deriving DecidableEq, Repr

open EditorMode

/-- The struct `Line` (muks.c:29-34): `text` holds the `length` characters before the
terminating NUL, `syntaxArr` is the block behind the pointer `line->syntax`. -/
structure Line where
  text : List Char
  syntaxArr : List SyntaxType
  deriving DecidableEq, Repr

/-- The conversion `(char)ch` of an `int` to a byte. -/
def toChar (ch : Int) : Char := Char.ofNat (ch % 256).toNat

/-- The C string stored in a character array: the characters before the first NUL. -/
def cstr (s : List Char) : List Char := s.takeWhile (fun c => c != Char.ofNat 0)

/-- The keyword table `c_keywords` (muks.c:57-62), without its NULL terminator. -/
def c_keywords : List String :=
  ["auto", "break", "case", "char", "const", "continue", "default", "define",
   "do", "doouble", "else", "enum", "extern", "float", "for", "goto", "if",
   "include", "inline", "int", "long", "register", "restrict", "return", "short",
   "signed", "sizeof", "static", "struct", "switch", "typedef", "typeof",
   "typeof_unqual", "union", "unsigned", "void", "volatile", "while"]

/-- The libc `isalpha` in the "C" locale. -/
def isalpha (c : Char) : Bool := c.isAlpha

/-- The libc `isdigit`. -/
def isdigit (c : Char) : Bool := c.isDigit

/-- The call `realloc(block, n * sizeof(int))`: the first `n` cells are kept, cells
beyond the old block are fresh (indeterminate in C, shown as `SYNTAX_NORMAL`). -/
def reallocSyntax (block : List SyntaxType) (n : Nat) : List SyntaxType :=
  block.take n ++ List.replicate (n - block.length) SYNTAX_NORMAL

/-- The function `appendLine` restricted to the line it creates (muks.c:100-127): the text is
a copy of the C string, the syntax block has one cell per character, filled by
`memset(line->syntax, SYNTAX_NORMAL, ...)`. -/
def newLine (text : List Char) : Line :=
  { text := cstr text,
    syntaxArr := List.replicate (cstr text).length (memsetInt SYNTAX_NORMAL) }

/-- The function `appendLine` (muks.c:85-130); the capacity doubling is not visible in a list. -/
def appendLine (buf : List Line) (text : List Char) : List Line :=
  buf ++ [newLine text]

/-- The function `insertChar` (muks.c:139-169). The second component is the new value of the
global `gDirty`. -/
def insertChar (line : Line) (pos : Int) (ch : Int) : Line × Bool :=
  let length : Int := line.text.length
  let pos : Int := if pos < 0 ∨ pos > length then length else pos
  let p : Nat := pos.toNat
  -- memmove(text + pos + 1, text + pos, length - pos); text[pos] = (char)ch; length++
  let text := line.text.take p ++ [toChar ch] ++ line.text.drop p
  -- realloc(syntax, length * sizeof(int))
  let block := reallocSyntax line.syntaxArr text.length
  -- memmove(syntax + pos + 1, syntax + pos, (length - pos - 1) * sizeof(int))
  let moved := block.take (p + 1) ++ (block.drop p).take (text.length - p - 1)
  -- syntax[pos] = SYNTAX_NORMAL
  ({ text := text, syntaxArr := moved.set p SYNTAX_NORMAL }, true)

/-- The function `deleteChar` (muks.c:171-179): the text loses the character at `pos`, the
syntax block is not touched. The second component is the new value of `gDirty`. -/
def deleteChar (line : Line) (pos : Int) (gDirty : Bool) : Line × Bool :=
  if pos < 0 ∨ pos ≥ (line.text.length : Int) then (line, gDirty)
  else ({ line with text := line.text.eraseIdx pos.toNat }, true)

/-! ## The tokenizer -/

/-- A checked write `syntax[j] = v`. -/
def writeSyntax (block : List SyntaxType) (j : Int) (v : SyntaxType) :
    Option (List SyntaxType) :=
  if 0 ≤ j ∧ j < (block.length : Int) then some (block.set j.toNat v) else none

/-- The loop `for (j = start; j < start + n; j++) syntax[j] = v`; with `v = memsetInt c` also
the call `memset(syntax + start, c, n * sizeof(int))`. -/
def fillSyntax (v : SyntaxType) : Nat → Int → List SyntaxType → Option (List SyntaxType)
  | 0, _, block => some block
  | n + 1, j, block => (writeSyntax block j v).bind (fillSyntax v n (j + 1))

/-- The loop `while (j < line->length && isdigit(line->text[j])) j++` (muks.c:250-251). -/
def scanDigits (text : List Char) : Nat → Nat → Nat
  | 0, j => j
  | fuel + 1, j =>
    match text[j]? with
    | some d => if isdigit d then scanDigits text fuel (j + 1) else j
    | none => j

/-- The locals of `update_line_syntax` (muks.c:185-193). `current_word` holds the
`word_pos` characters stored so far, so `word_pos` is its length. -/
structure Scan where
  i : Nat
  in_string : Nat
  in_multiline_comment : Bool
  in_singleline_comment : Bool
  current_word : List Char
  syntaxArr : List SyntaxType
  deriving DecidableEq, Repr

/-- The test `c == a && i < line->length - 1 && line->text[i + 1] == b` with a checked read
of `text[i + 1]`, evaluated left to right. -/
def pairAt (text : List Char) (i : Nat) (c a b : Char) : Option Bool :=
  if c == a && decide (i < text.length - 1) then (text[i + 1]?).map (fun n => n == b)
  else some false

/-- The keyword search of muks.c:271-280 and 288-297: when `current_word` equals an entry of
`c_keywords`, the cells `start .. stop - 1` become `SYNTAX_KEYWORD`. -/
def markKeyword (word : List Char) (start : Int) (stop : Int) (block : List SyntaxType) :
    Option (List SyntaxType) :=
  if c_keywords.any (fun k => k.toList == word) then
    fillSyntax SYNTAX_KEYWORD (stop - start).toNat start block
  else some block

/-- The branch for letters, underscores and everything else (muks.c:261-283). -/
def wordStep (c : Char) (st : Scan) : Option Scan :=
  if isalpha c || c == '_' then
    if st.current_word.length < 31 then
      some { st with current_word := st.current_word ++ [c], i := st.i + 1 }
    else some { st with i := st.i + 1 }
  else if st.current_word.length > 0 then
    (markKeyword st.current_word ((st.i : Int) - st.current_word.length) st.i st.syntaxArr).map
      fun block => { st with syntaxArr := block, current_word := [], i := st.i + 1 }
  else some { st with i := st.i + 1 }

/-- The test of muks.c:247: `c` is a digit and the previous character, if any, is not a letter,
digit or underscore. -/
def startsNumber (text : List Char) (i : Nat) (c : Char) : Option Bool :=
  if isdigit c then
    if i = 0 then some true
    else (text[i - 1]?).map (fun p => !(isalpha p || isdigit p || p == '_'))
  else some false

/-- The test of muks.c:253: the digit run ends the line or is not followed by a letter or
underscore. -/
def endsNumber (text : List Char) (j : Nat) : Option Bool :=
  if j = text.length then some true
  else (text[j]?).map (fun n => !(isalpha n || n == '_'))

/-- The part of the loop body after the quote test (muks.c:232-283). The flag is `true` when the
body leaves the loop through `break`. The `//` branch is the `memset` of muks.c:242, which
works on bytes: each cell from `i` on receives `memsetInt SYNTAX_COMMENT`. -/
def codeStep (text : List Char) (c : Char) (st : Scan) : Option (Bool × Scan) :=
  let i := st.i
  (pairAt text i c '/' '*').bind fun star =>
  if star then
    (writeSyntax st.syntaxArr i SYNTAX_COMMENT).bind fun b1 =>
    (writeSyntax b1 (i + 1) SYNTAX_COMMENT).map fun b2 =>
      (false, { st with syntaxArr := b2, in_multiline_comment := true, i := i + 2 })
  else
  (pairAt text i c '/' '/').bind fun slash =>
  if slash then
    (fillSyntax (memsetInt SYNTAX_COMMENT) (text.length - i) i st.syntaxArr).map fun b =>
      (true, { st with syntaxArr := b, in_singleline_comment := true })
  else
  (startsNumber text i c).bind fun num =>
  if num then
    let j := scanDigits text (text.length - i) i
    (endsNumber text j).bind fun fin =>
    if fin then
      (fillSyntax SYNTAX_NUMBER (j - i) i st.syntaxArr).map fun b =>
        (false, { st with syntaxArr := b, i := j })
    else (wordStep c st).map fun st1 => (false, st1)
  else (wordStep c st).map fun st1 => (false, st1)

/-- One iteration of the `for` loop of `update_line_syntax` (muks.c:193-284), including the
`i++` that follows a `continue` or the end of the body. -/
def scanStep (text : List Char) (st : Scan) : Option (Bool × Scan) :=
  let i := st.i
  (text[i]?).bind fun c =>
  if st.in_singleline_comment then
    (writeSyntax st.syntaxArr i SYNTAX_COMMENT).map fun b =>
      (false, { st with syntaxArr := b, i := i + 1 })
  else if st.in_multiline_comment then
    (writeSyntax st.syntaxArr i SYNTAX_COMMENT).bind fun b1 =>
    (pairAt text i c '*' '/').bind fun slash =>
    if slash then
      (writeSyntax b1 (i + 1) SYNTAX_COMMENT).map fun b2 =>
        (false, { st with syntaxArr := b2, in_multiline_comment := false, i := i + 2 })
    else some (false, { st with syntaxArr := b1, i := i + 1 })
  else if st.in_string ≠ 0 then
    (writeSyntax st.syntaxArr i SYNTAX_STRING).bind fun b1 =>
    if c == '\\' && decide (i < text.length - 1) then
      (writeSyntax b1 (i + 1) SYNTAX_STRING).map fun b2 =>
        (false, { st with syntaxArr := b2, i := i + 2 })
    else if c.toNat = st.in_string then
      some (false, { st with syntaxArr := b1, in_string := 0, i := i + 1 })
    else some (false, { st with syntaxArr := b1, i := i + 1 })
  else if c == '"' || c == '\'' then
    (writeSyntax st.syntaxArr i SYNTAX_STRING).map fun b =>
      (false, { st with syntaxArr := b, in_string := c.toNat, i := i + 1 })
  else codeStep text c st

/-- The `for` loop of `update_line_syntax`; every iteration moves `i` forward, so
`line->length` iterations are enough, and running out of them earlier is reported as `none`. -/
def scanLoop (text : List Char) : Nat → Scan → Option Scan
  | 0, st => if st.i < text.length then none else some st
  | fuel + 1, st =>
    if st.i < text.length then
      (scanStep text st).bind fun r => if r.1 then some r.2 else scanLoop text fuel r.2
    else some st

/-- The call `memset(line->syntax, SYNTAX_NORMAL, line->length * sizeof(int))` (muks.c:191). -/
def clearSyntax (line : Line) : Option (List SyntaxType) :=
  fillSyntax (memsetInt SYNTAX_NORMAL) line.text.length 0 line.syntaxArr

/-- The function `update_line_syntax` (muks.c:181-299); `none` stands for an access outside
the text or the syntax block. -/
def update_line_syntax (line : Line) : Option Line :=
  (clearSyntax line).bind fun cleared =>
  (scanLoop line.text line.text.length
    { i := 0, in_string := 0, in_multiline_comment := false, in_singleline_comment := false,
      current_word := [], syntaxArr := cleared }).bind fun st =>
  if st.current_word.length > 0 then
    (markKeyword st.current_word ((line.text.length : Int) - st.current_word.length)
      line.text.length st.syntaxArr).map fun block => { line with syntaxArr := block }
  else some { line with syntaxArr := st.syntaxArr }

/-! ## Persistence -/

/-- The call `getline(&line, &len, fp)` on the unread part of the file: the record up to and
including the next line feed (or up to the end of the file) and what is left; `none` is the
return value -1 at the end of the file. -/
def getline : List Char → Option (List Char × List Char)
  | [] => none
  | c :: cs =>
    if c == '\n' then some ([c], cs)
    else match getline cs with
      | some (r, rest) => some (c :: r, rest)
      | none => some ([c], [])

/-- The statement `if (read > 0 && (line[read - 1] == '\n' || line[read - 1] == '\r'))
line[--read] = '\0';` (muks.c:312-313): one trailing character is cut. -/
def stripEol (record : List Char) : List Char :=
  match record.getLast? with
  | some c => if c == '\n' || c == '\r' then record.dropLast else record
  | none => record

/-- The `while` loop of `loadFile` (muks.c:310-315); every `getline` consumes a character, and
`none` reports that the iterations ran out before the end of the file. -/
def loadLoop : Nat → List Char → List Line → Option (List Line)
  | 0, rest, buf => if rest = [] then some buf else none
  | fuel + 1, rest, buf =>
    match getline rest with
    | none => some buf
    | some (record, rest1) => loadLoop fuel rest1 (appendLine buf (stripEol record))

/-- The function `loadFile` (muks.c:301-319). `file` is the content of the file `fname`, `none`
when `fopen` fails; the result is the return value and the buffer. -/
def loadFile (buf : List Line) (file : Option (List Char)) : Option (Int × List Line) :=
  match file with
  | none => some (-1, buf)
  | some content => (loadLoop content.length content buf).map fun b => (0, b)

/-- The function `saveFile` (muks.c:321-330). `fopenOk` tells whether the file can be opened for
writing; `none` is the return value -1, `some content` the return value 0 with the content
written. -/
def saveFile (buf : List Line) (fopenOk : Bool) : Option (List Char) :=
  if fopenOk then some (buf.flatMap fun l => cstr l.text ++ ['\n']) else none

/-! ## The session -/

/-- The globals of muks.c:43-55. `gCmdBuffer` holds the `gCmdLen` characters stored so far (the
array cell after them is NUL), `gDirty` is only ever 0 or 1. -/
structure Session where
  gBuffer : List Line
  gMode : EditorMode
  gCmdBuffer : List Char
  gStatusMsg : String
  gCursorX : Int
  gCursorY : Int
  gOffsetX : Int
  gOffsetY : Int
  gFilename : Option String
  gDirty : Bool
  deriving DecidableEq, Repr

/-- The key code of a character constant such as `'h'`. -/
def code (c : Char) : Int := c.toNat

/-- The ncurses key code `KEY_DOWN` (0402). -/
def KEY_DOWN : Int := 258
/-- The ncurses key code `KEY_UP` (0403). -/
def KEY_UP : Int := 259
/-- The ncurses key code `KEY_LEFT` (0404). -/
def KEY_LEFT : Int := 260
/-- The ncurses key code `KEY_RIGHT` (0405). -/
def KEY_RIGHT : Int := 261
/-- The ncurses key code `KEY_BACKSPACE` (0407). -/
def KEY_BACKSPACE : Int := 263
/-- The size `CMD_BUFFER_SIZE` of the command buffer (muks.c:10). -/
def CMD_BUFFER_SIZE : Nat := 256
/-- The size `STATUS_MSG_SIZE` of the status message (muks.c:11). -/
def STATUS_MSG_SIZE : Nat := 256

/-- A checked read `buf->lines[y]`. -/
def lineAt (buf : List Line) (y : Int) : Option Line :=
  if 0 ≤ y then buf[y.toNat]? else none

/-- The function `editorSetStatusMessage` (muks.c:534-540): `vsnprintf` keeps at most
`STATUS_MSG_SIZE - 1` characters. -/
def editorSetStatusMessage (s : Session) (msg : String) : Session :=
  { s with gStatusMsg := String.mk (msg.toList.take (STATUS_MSG_SIZE - 1)) }

/-- The function `ensureCursorInBounds` (muks.c:332-343). -/
def ensureCursorInBounds (s : Session) : Option Session :=
  let num_lines : Int := s.gBuffer.length
  let y1 : Int := if s.gCursorY < 0 then 0 else s.gCursorY
  let y2 : Int := if y1 ≥ num_lines then num_lines - 1 else y1
  (lineAt s.gBuffer y2).map fun line =>
    let x1 : Int := if s.gCursorX < 0 then 0 else s.gCursorX
    let x2 : Int := if x1 > (line.text.length : Int) then line.text.length else x1
    { s with gCursorY := y2, gCursorX := x2 }

/-- The `switch` of `processNormalMode` (muks.c:452-488). -/
def normalKey (ch : Int) (s : Session) : Option Session :=
  if ch = code 'h' ∨ ch = KEY_LEFT then some { s with gCursorX := s.gCursorX - 1 }
  else if ch = code 'j' ∨ ch = KEY_DOWN then some { s with gCursorY := s.gCursorY + 1 }
  else if ch = code 'k' ∨ ch = KEY_UP then some { s with gCursorY := s.gCursorY - 1 }
  else if ch = code 'l' ∨ ch = KEY_RIGHT then some { s with gCursorX := s.gCursorX + 1 }
  else if ch = code 'i' then some { s with gMode := MODE_INSERT }
  else if ch = code ':' then some { s with gMode := MODE_COMMAND, gCmdBuffer := [':'] }
  else if ch = code '1' then some { s with gCursorX := 0 }
  else if ch = code '2' then
    (lineAt s.gBuffer s.gCursorY).map fun line => { s with gCursorX := line.text.length }
  else some s

/-- The function `processNormalMode` (muks.c:450-491). -/
def processNormalMode (ch : Int) (s : Session) : Option Session :=
  (normalKey ch s).bind ensureCursorInBounds

/-- The `switch` of `processInsertMode` (muks.c:495-529). -/
def insertKey (ch : Int) (s : Session) : Option Session :=
  if ch = 27 then some { s with gMode := MODE_NORMAL }
  else if ch = KEY_BACKSPACE then
    if s.gCursorX > 0 then
      (lineAt s.gBuffer s.gCursorY).map fun line =>
        let r := deleteChar line (s.gCursorX - 1) s.gDirty
        { s with gBuffer := s.gBuffer.set s.gCursorY.toNat r.1, gDirty := r.2,
                 gCursorX := s.gCursorX - 1 }
    else some s
  else if ch = KEY_UP then
    if s.gCursorY > 0 then some { s with gCursorY := s.gCursorY - 1 } else some s
  else if ch = KEY_DOWN then
    if s.gCursorY < (s.gBuffer.length : Int) - 1 then some { s with gCursorY := s.gCursorY + 1 }
    else some { s with gBuffer := appendLine s.gBuffer [] }
  else if ch = KEY_LEFT then
    if s.gCursorX > 0 then some { s with gCursorX := s.gCursorX - 1 } else some s
  else if ch = KEY_RIGHT then
    (lineAt s.gBuffer s.gCursorY).map fun line =>
      if s.gCursorX < (line.text.length : Int) then { s with gCursorX := s.gCursorX + 1 } else s
  else
    (lineAt s.gBuffer s.gCursorY).map fun line =>
      let r := insertChar line s.gCursorX ch
      { s with gBuffer := s.gBuffer.set s.gCursorY.toNat r.1, gDirty := r.2,
               gCursorX := s.gCursorX + 1 }

/-- The function `processInsertMode` (muks.c:493-532). -/
def processInsertMode (ch : Int) (s : Session) : Option Session :=
  (insertKey ch s).bind ensureCursorInBounds

/-- What a call of `processCommandMode` leaves behind: the globals, the status passed to
`exit` when the process ended, and the content written when a save succeeded. -/
structure Outcome where
  session : Session
  exited : Option Int
  written : Option (List Char)
  deriving DecidableEq, Repr

/-- The test `strcmp(gCmdBuffer, lit) == 0`. -/
def cmdIs (s : Session) (lit : String) : Bool := cstr s.gCmdBuffer == lit.toList

/-- The function `processCommandMode` (muks.c:542-636). `fopenOk` tells whether `saveFile` can
open the file for writing. -/
def processCommandMode (fopenOk : Bool) (ch : Int) (s : Session) : Outcome :=
  if ch = code '\n' then
    if cmdIs s ":wq" then
      match s.gFilename with
      | some _ =>
        match saveFile s.gBuffer fopenOk with
        | some content =>
          { session := editorSetStatusMessage { s with gDirty := false, gMode := MODE_NORMAL }
              "File saved and exiting!",
            exited := some 0, written := some content }
        | none =>
          { session := { editorSetStatusMessage s "Error saving file!" with gMode := MODE_NORMAL },
            exited := none, written := none }
      | none => { session := { s with gMode := MODE_NORMAL }, exited := none, written := none }
    else if cmdIs s ":w" then
      match s.gFilename with
      | some _ =>
        match saveFile s.gBuffer fopenOk with
        | some content =>
          { session := { editorSetStatusMessage { s with gDirty := false, gMode := MODE_NORMAL }
              "File saved!" with gMode := MODE_NORMAL },
            exited := none, written := some content }
        | none =>
          { session := { editorSetStatusMessage s "Error saving file!" with gMode := MODE_NORMAL },
            exited := none, written := none }
      | none =>
        { session := { editorSetStatusMessage s "No filename to save." with gMode := MODE_NORMAL },
          exited := none, written := none }
    else if cmdIs s ":q!" then
      { session := editorSetStatusMessage { s with gMode := MODE_NORMAL } "Exiting without saving.",
        exited := some 0, written := none }
    else if cmdIs s ":q" then
      if s.gDirty then
        { session := { editorSetStatusMessage s "You have unsaved changes. Use :w to save."
            with gMode := MODE_NORMAL },
          exited := none, written := none }
      else { session := { s with gMode := MODE_NORMAL }, exited := some 0, written := none }
    else
      { session := { editorSetStatusMessage s "Unknown command!" with gMode := MODE_NORMAL },
        exited := none, written := none }
  else if ch = 27 then
    { session := { s with gMode := MODE_NORMAL }, exited := none, written := none }
  else if ch = KEY_BACKSPACE then
    { session := if s.gCmdBuffer.length > 0 then { s with gCmdBuffer := s.gCmdBuffer.dropLast }
                 else s,
      exited := none, written := none }
  else
    { session := if s.gCmdBuffer.length < CMD_BUFFER_SIZE - 1 then
                   { s with gCmdBuffer := s.gCmdBuffer ++ [toChar ch] }
                 else s,
      exited := none, written := none }

/-- The initialisation of `main` (muks.c:644-666). `argv1` is the filename argument when
`argc >= 2`, `file` the content of that file (`none` when it cannot be opened). -/
def initSession (argv1 : Option String) (file : Option (List Char)) : Option Session :=
  let s0 : Session :=
    { gBuffer := [], gMode := MODE_NORMAL, gCmdBuffer := [], gStatusMsg := "",
      gCursorX := 0, gCursorY := 0, gOffsetX := 0, gOffsetY := 0, gFilename := none,
      gDirty := false }
  let loaded : Option Session :=
    match argv1 with
    | some name =>
      (loadFile s0.gBuffer file).map fun r =>
        let s1 := { s0 with gFilename := some name, gBuffer := r.2 }
        if r.1 = -1 then editorSetStatusMessage s1 ("Failed to open: " ++ name) else s1
    | none => some { s0 with gBuffer := appendLine s0.gBuffer [] }
  loaded.map fun s =>
    { s with gDirty := false, gCursorX := 0, gCursorY := 0, gOffsetX := 0, gOffsetY := 0 }

/-- The cursor invariant: the row is a valid line index and the column lies between 0 and the
length of that line. -/
def cursorInBounds (s : Session) : Prop :=
  0 ≤ s.gCursorY ∧ s.gCursorY < (s.gBuffer.length : Int) ∧
    ∃ line, lineAt s.gBuffer s.gCursorY = some line ∧
      0 ≤ s.gCursorX ∧ s.gCursorX ≤ (line.text.length : Int)

/-- A session in Insert mode on the single empty line of a fresh, clean buffer. -/
def freshInsert : Session :=
  { gBuffer := [newLine []], gMode := MODE_INSERT, gCmdBuffer := [], gStatusMsg := "",
    gCursorX := 0, gCursorY := 0, gOffsetX := 0, gOffsetY := 0, gFilename := none,
    gDirty := false }

/-- The function `updateOffsets` (muks.c:353-375). `maxY` and `maxX` are the grid size that
`getmaxyx(stdscr, maxY, maxX)` reports. -/
def updateOffsets (maxY maxX : Int) (s : Session) : Session :=
  let offY : Int :=
    if s.gCursorY < s.gOffsetY then s.gCursorY
    else if s.gCursorY ≥ s.gOffsetY + (maxY - 2) then s.gCursorY - (maxY - 2) + 1
    else s.gOffsetY
  let offX : Int :=
    if s.gCursorX < s.gOffsetX then s.gCursorX
    else if s.gCursorX ≥ s.gOffsetX + maxX then s.gCursorX - maxX + 1
    else s.gOffsetX
  { s with gOffsetY := offY, gOffsetX := offX }

/-- The closing quote of a literal as the description words it, on the characters that follow
the opening quote `q`: a backslash takes the next character with it, and the first character
equal to `q` that is not taken this way closes the literal. The result is its offset, `none`
when the literal is not closed. -/
def closingQuote (q : Char) : List Char → Option Nat
  | [] => none
  | [c] => if c = '\\' then none else if c = q then some 0 else none
  | c :: d :: rest =>
    if c = '\\' then (closingQuote q rest).map (fun m => m + 2)
    else if c = q then some 0
    else (closingQuote q (d :: rest)).map (fun m => m + 1)

/-- The number of characters after the opening quote that belong to the literal: up to and
including the closing quote, or all of them when the literal is not closed. -/
def literalEnd (q : Char) (rest : List Char) : Nat :=
  match closingQuote q rest with
  | some m => m + 1
  | none => rest.length

/-- The positions the description calls a number: `k` lies in a maximal run of digits
`s .. e - 1` that is not immediately preceded by a letter, digit or underscore and not
immediately followed by a letter or underscore. -/
def NumberAt (text : List Char) (k : Nat) : Prop :=
  ∃ s e, s ≤ k ∧ k < e ∧ e ≤ text.length ∧
    (∀ m, s ≤ m → m < e → ∃ d, text[m]? = some d ∧ isdigit d = true) ∧
    (s = 0 ∨ ∃ p, text[s - 1]? = some p ∧ (isalpha p || isdigit p || p == '_') = false) ∧
    (e = text.length ∨
      ∃ n, text[e]? = some n ∧ isdigit n = false ∧ (isalpha n || n == '_') = false)

/-- The state of the loop of `update_line_syntax` on a line without quotes and slashes, in
terms of the description: no literal or comment is open, the cells before `i` are Number
exactly at the number positions, the cells from `i` on are still Normal, the pending word is
made of the letters and underscores just before `i` and is empty after any other character,
and `i` is not inside a run of digits that was accepted as a number. -/
def NumberInv (text : List Char) (st : Scan) : Prop :=
  st.i ≤ text.length ∧ st.syntaxArr.length = text.length ∧ st.in_string = 0 ∧
  st.in_multiline_comment = false ∧ st.in_singleline_comment = false ∧
  st.current_word.length ≤ st.i ∧
  (∀ k, k < st.i → (st.syntaxArr[k]? = some SYNTAX_NUMBER ↔ NumberAt text k)) ∧
  (∀ k, st.i ≤ k → k < text.length → st.syntaxArr[k]? = some SYNTAX_NORMAL) ∧
  (∀ k, st.i - st.current_word.length ≤ k → k < st.i →
    ∃ c, text[k]? = some c ∧ (isalpha c || c == '_') = true) ∧
  (0 < st.i → ∀ p, text[st.i - 1]? = some p → (isalpha p || p == '_') = false →
    st.current_word = []) ∧
  (0 < st.i → ∀ p c, text[st.i - 1]? = some p → text[st.i]? = some c →
    isdigit p = true → isdigit c = true → ¬ NumberAt text (st.i - 1))

/-- The classification array of a line: the cells `line->syntax[0 .. line->length - 1]`.
`struct Line` (muks.c:29-34) has the one field `length` for the text and for the syntax array,
and every use of `line->syntax` stays below it (muks.c:191, 193, 395-398); what the heap block
holds beyond is never read. -/
def classification (line : Line) : List SyntaxType :=
  line.syntaxArr.take line.text.length

/-- A call of one of the two mutators of a line, with its arguments. -/
inductive LineCall where
  | insert (pos : Int) (ch : Int)
  | delete (pos : Int)
  deriving DecidableEq, Repr

/-- The effect of one call on the line and on `gDirty`. -/
def applyCall (st : Line × Bool) : LineCall → Line × Bool
  | LineCall.insert pos ch => insertChar st.1 pos ch
  | LineCall.delete pos => deleteChar st.1 pos st.2

/-- The effect of a sequence of calls, first call first. -/
def runCalls (st : Line × Bool) (calls : List LineCall) : Line × Bool :=
  calls.foldl applyCall st

/-! ## Auxiliary facts -/

/-- A checked line read succeeds on every valid row. -/
theorem lineAt_some (buf : List Line) (y : Int) (h0 : 0 ≤ y) (h1 : y < (buf.length : Int)) :
    ∃ line, lineAt buf y = some line := by
  have hlt : y.toNat < buf.length := by omega
  exact ⟨buf[y.toNat], by simp [lineAt, h0, List.getElem?_eq_getElem hlt]⟩

/-- On a buffer with at least one line `ensureCursorInBounds` returns, establishes the cursor
invariant and changes nothing but the cursor. -/
theorem ensureCursorInBounds_ok (s : Session) (h : 0 < s.gBuffer.length) :
    ∃ s1, ensureCursorInBounds s = some s1 ∧ cursorInBounds s1 ∧ s1.gBuffer = s.gBuffer ∧
      s1.gMode = s.gMode ∧ s1.gDirty = s.gDirty := by
  unfold ensureCursorInBounds
  simp only []
  generalize hy : (if (if s.gCursorY < 0 then (0 : Int) else s.gCursorY) ≥ (s.gBuffer.length : Int)
    then (s.gBuffer.length : Int) - 1 else (if s.gCursorY < 0 then (0 : Int) else s.gCursorY)) = y2
  have hy0 : 0 ≤ y2 ∧ y2 < (s.gBuffer.length : Int) := by
    subst hy; split_ifs <;> omega
  obtain ⟨line, hl⟩ := lineAt_some s.gBuffer y2 hy0.1 hy0.2
  rw [hl]
  refine ⟨_, rfl, ?_, rfl, rfl, rfl⟩
  refine ⟨hy0.1, hy0.2, line, hl, ?_, ?_⟩ <;> simp only [] <;> split_ifs <;> omega

/-- With a valid cursor the `switch` of `processNormalMode` reads no line out of range and leaves
the buffer alone. -/
theorem normalKey_ok (ch : Int) (s : Session) (h : cursorInBounds s) :
    ∃ s1, normalKey ch s = some s1 ∧ s1.gBuffer = s.gBuffer := by
  obtain ⟨_, _, line, hl, _⟩ := h
  unfold normalKey
  split_ifs <;> simp [hl]

/-- With a valid cursor the `switch` of `processInsertMode` reads no line out of range and leaves
a buffer that is not empty. -/
theorem insertKey_ok (ch : Int) (s : Session) (h : cursorInBounds s) :
    ∃ s1, insertKey ch s = some s1 ∧ 0 < s1.gBuffer.length := by
  obtain ⟨h0, h1, line, hl, _⟩ := h
  have hpos : 0 < s.gBuffer.length := by omega
  unfold insertKey
  split_ifs <;> simp [hl, appendLine, hpos]
  split_ifs <;> simp [hpos]

/-- A write inside the block succeeds. -/
theorem writeSyntax_some (block : List SyntaxType) (j : Nat) (v : SyntaxType)
    (h : j < block.length) : writeSyntax block (j : Int) v = some (block.set j v) := by
  simp [writeSyntax, h]

/-- A fill that stays inside the block succeeds, keeps the length of the block, and changes
exactly the cells of its range. -/
theorem fillSyntax_spec (v : SyntaxType) :
    ∀ (n j : Nat) (block : List SyntaxType), j + n ≤ block.length →
      ∃ b, fillSyntax v n (j : Int) block = some b ∧ b.length = block.length ∧
        ∀ k, b[k]? = if j ≤ k ∧ k < j + n then some v else block[k]? := by
  intro n
  induction n with
  | zero =>
    intro j block _
    refine ⟨block, rfl, rfl, ?_⟩
    intro k
    split_ifs with hk
    · omega
    · rfl
  | succ n ih =>
    intro j block h
    have hj : j < block.length := by omega
    obtain ⟨b, hb, hlen, hget⟩ := ih (j + 1) (block.set j v) (by simp; omega)
    refine ⟨b, ?_, by simpa using hlen, ?_⟩
    · simp only [fillSyntax, writeSyntax_some block j v hj, Option.some_bind]
      have : ((j : Int) + 1) = ((j + 1 : Nat) : Int) := by push_cast; rfl
      rw [this]; exact hb
    · intro k
      rw [hget k, List.getElem?_set]
      by_cases hk : j = k
      · subst hk
        have h1 : ¬ (j + 1 ≤ j ∧ j < j + 1 + n) := by omega
        have h2 : (j ≤ j ∧ j < j + (n + 1)) := by omega
        simp [h1, h2, hj]
      · by_cases hk2 : j + 1 ≤ k ∧ k < j + 1 + n
        · have h2 : (j ≤ k ∧ k < j + (n + 1)) := by omega
          simp [hk2, h2]
        · have h2 : ¬ (j ≤ k ∧ k < j + (n + 1)) := by omega
          simp [hk2, h2, hk]

/-- The keyword search writes inside the block when the word is no longer than the number of
characters before its end. -/
theorem markKeyword_ok (word : List Char) (wl i : Nat) (block : List SyntaxType)
    (hw : wl ≤ i) (hi : i ≤ block.length) :
    ∃ b, markKeyword word ((i : Int) - (wl : Int)) (i : Int) block = some b ∧
      b.length = block.length := by
  unfold markKeyword
  split_ifs
  · have h1 : ((i : Int) - ((i : Int) - (wl : Int))).toNat = wl := by omega
    have h2 : ((i : Int) - (wl : Int)) = ((i - wl : Nat) : Int) := by omega
    rw [h1, h2]
    obtain ⟨b, hb, hlen, _⟩ := fillSyntax_spec SYNTAX_KEYWORD wl (i - wl) block (by omega)
    exact ⟨b, hb, hlen⟩
  · exact ⟨block, rfl, rfl⟩

/-- The word branch returns, moves `i` forward by one and keeps `word_pos <= i`. -/
theorem wordStep_ok (c : Char) (st : Scan) (hw : st.current_word.length ≤ st.i)
    (hi : st.i ≤ st.syntaxArr.length) :
    ∃ st1, wordStep c st = some st1 ∧ st1.i = st.i + 1 ∧
      st1.syntaxArr.length = st.syntaxArr.length ∧ st1.current_word.length ≤ st1.i := by
  unfold wordStep
  split_ifs with h1 h2 h3
  · exact ⟨_, rfl, rfl, rfl, by simp; omega⟩
  · exact ⟨_, rfl, rfl, rfl, by simp; omega⟩
  · obtain ⟨b, hb, hlen⟩ := markKeyword_ok st.current_word st.current_word.length st.i
      st.syntaxArr hw hi
    rw [hb]
    exact ⟨_, rfl, rfl, hlen, by simp⟩
  · exact ⟨_, rfl, rfl, rfl, by simp; omega⟩

/-- The digit scan stops between its start and the end of the line. -/
theorem scanDigits_bounds (text : List Char) :
    ∀ (fuel j : Nat), j ≤ text.length →
      j ≤ scanDigits text fuel j ∧ scanDigits text fuel j ≤ text.length := by
  intro fuel
  induction fuel with
  | zero => intro j h; exact ⟨le_refl _, h⟩
  | succ fuel ih =>
    intro j h
    unfold scanDigits
    cases hd : text[j]? with
    | none => exact ⟨le_refl _, h⟩
    | some d =>
      have hj : j < text.length := by
        by_contra hn
        rw [List.getElem?_eq_none (by omega)] at hd
        cases hd
      simp only []
      split_ifs
      · have := ih (j + 1) (by omega)
        omega
      · exact ⟨le_refl _, h⟩

/-- The digit scan moves past a digit. -/
theorem scanDigits_advances (text : List Char) (fuel j : Nat) (c : Char)
    (hc : text[j]? = some c) (hd : isdigit c = true) (hj : j < text.length) (hf : 0 < fuel) :
    j + 1 ≤ scanDigits text fuel j := by
  cases fuel with
  | zero => omega
  | succ fuel =>
    unfold scanDigits
    simp only [hc, hd, if_true]
    exact (scanDigits_bounds text fuel (j + 1) (by omega)).1

/-- A write inside the block succeeds and keeps the length of the block. -/
theorem writeSyntax_ok (block : List SyntaxType) (j : Int) (v : SyntaxType)
    (h0 : 0 ≤ j) (h1 : j < (block.length : Int)) :
    ∃ b, writeSyntax block j v = some b ∧ b.length = block.length := by
  exact ⟨block.set j.toNat v, by simp [writeSyntax, h0, h1], by simp⟩

/-- The lookahead test reads inside the text; when it holds, `i + 1` is a valid index. -/
theorem pairAt_ok (text : List Char) (i : Nat) (c a b : Char) :
    ∃ r, pairAt text i c a b = some r ∧ (r = true → i + 1 < text.length) := by
  unfold pairAt
  split_ifs with h
  · have h1 : i + 1 < text.length := by
      simp at h
      omega
    rw [List.getElem?_eq_getElem h1]
    exact ⟨_, rfl, fun _ => h1⟩
  · exact ⟨false, rfl, by simp⟩

/-- The test for the start of a number reads inside the text. -/
theorem startsNumber_ok (text : List Char) (i : Nat) (c : Char) (hi : i < text.length) :
    ∃ b, startsNumber text i c = some b ∧ (b = true → isdigit c = true) := by
  unfold startsNumber
  split_ifs with h1 h2
  · exact ⟨true, rfl, fun _ => h1⟩
  · have h3 : i - 1 < text.length := by omega
    rw [List.getElem?_eq_getElem h3]
    exact ⟨_, rfl, fun _ => h1⟩
  · exact ⟨false, rfl, by simp⟩

/-- The test for the end of a number reads inside the text. -/
theorem endsNumber_ok (text : List Char) (j : Nat) (hj : j ≤ text.length) :
    ∃ b, endsNumber text j = some b := by
  unfold endsNumber
  split_ifs with h1
  · exact ⟨true, rfl⟩
  · have h3 : j < text.length := by omega
    rw [List.getElem?_eq_getElem h3]
    exact ⟨_, rfl⟩

/-- The part of the loop body after the quote test returns, moves `i` forward unless it
breaks, and keeps `i <= length`, the size of the block and `word_pos <= i`. -/
theorem codeStep_ok (text : List Char) (c : Char) (st : Scan)
    (hc : text[st.i]? = some c) (hi : st.i < text.length)
    (hlen : text.length ≤ st.syntaxArr.length) (hw : st.current_word.length ≤ st.i) :
    ∃ brk st1, codeStep text c st = some (brk, st1) ∧ (brk = false → st.i < st1.i) ∧
      st1.i ≤ text.length ∧ st1.syntaxArr.length = st.syntaxArr.length ∧
      st1.current_word.length ≤ st1.i := by
  obtain ⟨star, hs, hsl⟩ := pairAt_ok text st.i c '/' '*'
  obtain ⟨slash, hq, hql⟩ := pairAt_ok text st.i c '/' '/'
  obtain ⟨num, hn, hnd⟩ := startsNumber_ok text st.i c hi
  have hj := scanDigits_bounds text (text.length - st.i) st.i (by omega)
  obtain ⟨fin, hf⟩ := endsNumber_ok text _ hj.2
  obtain ⟨st1, hw1, hi1, hl1, hc1⟩ := wordStep_ok c st hw (by omega)
  unfold codeStep
  simp only [hs, hq, hn, hf, hw1, Option.some_bind, Option.map_some']
  split_ifs with h1 h2 h3 h4
  · have := hsl h1
    obtain ⟨b1, hb1, hl1⟩ := writeSyntax_ok st.syntaxArr (st.i : Int) SYNTAX_COMMENT
      (by omega) (by omega)
    obtain ⟨b2, hb2, hl2⟩ := writeSyntax_ok b1 ((st.i : Int) + 1) SYNTAX_COMMENT
      (by omega) (by omega)
    simp only [hb1, hb2, Option.some_bind, Option.map_some']
    exact ⟨_, _, rfl, fun _ => by simp, by simp; omega, by simp; omega, by simp; omega⟩
  · obtain ⟨b, hb, hlb, _⟩ := fillSyntax_spec (memsetInt SYNTAX_COMMENT) (text.length - st.i) st.i
      st.syntaxArr (by omega)
    simp only [hb, Option.map_some']
    exact ⟨_, _, rfl, fun h => by simp at h, by simp; omega, by simp; omega, by simpa using hw⟩
  · have hadv := scanDigits_advances text (text.length - st.i) st.i c hc (hnd h3) hi (by omega)
    obtain ⟨b, hb, hlb, _⟩ := fillSyntax_spec SYNTAX_NUMBER
      (scanDigits text (text.length - st.i) st.i - st.i) st.i st.syntaxArr (by omega)
    simp only [hb, Option.map_some']
    exact ⟨_, _, rfl, fun _ => by simp; omega, by simp; omega, by simp; omega,
      by simp; omega⟩
  · exact ⟨_, _, rfl, fun _ => by omega, by omega, hl1, hc1⟩
  · exact ⟨_, _, rfl, fun _ => by omega, by omega, hl1, hc1⟩

/-- One iteration of the loop returns, moves `i` forward unless it breaks, and keeps
`i <= length`, the size of the block and `word_pos <= i`. -/
theorem scanStep_ok (text : List Char) (st : Scan) (hi : st.i < text.length)
    (hlen : text.length ≤ st.syntaxArr.length) (hw : st.current_word.length ≤ st.i) :
    ∃ brk st1, scanStep text st = some (brk, st1) ∧ (brk = false → st.i < st1.i) ∧
      st1.i ≤ text.length ∧ st1.syntaxArr.length = st.syntaxArr.length ∧
      st1.current_word.length ≤ st1.i := by
  have hc : text[st.i]? = some text[st.i] := List.getElem?_eq_getElem hi
  obtain ⟨b1, hb1, hl1⟩ := writeSyntax_ok st.syntaxArr (st.i : Int) SYNTAX_COMMENT
    (by omega) (by omega)
  obtain ⟨b3, hb3, hl3⟩ := writeSyntax_ok st.syntaxArr (st.i : Int) SYNTAX_STRING
    (by omega) (by omega)
  obtain ⟨slash, hq, hql⟩ := pairAt_ok text st.i text[st.i] '*' '/'
  unfold scanStep
  simp only [hc, hb1, hb3, hq, Option.some_bind, Option.map_some']
  split_ifs with h1 h2 h3 h4 h5 h6 h7
  · exact ⟨_, _, rfl, fun _ => by simp, by simp; omega, by simpa using hl1, by simp; omega⟩
  · have := hql h3
    obtain ⟨b2, hb2, hl2⟩ := writeSyntax_ok b1 ((st.i : Int) + 1) SYNTAX_COMMENT
      (by omega) (by omega)
    simp only [hb2, Option.map_some']
    exact ⟨_, _, rfl, fun _ => by simp, by simp; omega, by simp; omega, by simp; omega⟩
  · exact ⟨_, _, rfl, fun _ => by simp, by simp; omega, by simpa using hl1, by simp; omega⟩
  · have hlt : st.i < text.length - 1 := by simp at h5; exact h5.2
    obtain ⟨b2, hb2, hl2⟩ := writeSyntax_ok b3 ((st.i : Int) + 1) SYNTAX_STRING
      (by omega) (by omega)
    simp only [hb2, Option.map_some']
    exact ⟨_, _, rfl, fun _ => by simp, by simp; omega, by simp; omega, by simp; omega⟩
  · exact ⟨_, _, rfl, fun _ => by simp, by simp; omega, by simpa using hl3, by simp; omega⟩
  · exact ⟨_, _, rfl, fun _ => by simp, by simp; omega, by simpa using hl3, by simp; omega⟩
  · exact ⟨_, _, rfl, fun _ => by simp, by simp; omega, by simpa using hl3, by simp; omega⟩
  · exact codeStep_ok text _ st hc hi hlen hw

/-- With `length - i` iterations left the loop returns; it keeps the size of the block and ends
with `word_pos <= length`. -/
theorem scanLoop_ok (text : List Char) :
    ∀ (fuel : Nat) (st : Scan), text.length ≤ fuel + st.i → st.i ≤ text.length →
      text.length ≤ st.syntaxArr.length → st.current_word.length ≤ st.i →
      ∃ st1, scanLoop text fuel st = some st1 ∧
        st1.syntaxArr.length = st.syntaxArr.length ∧ st1.current_word.length ≤ text.length := by
  intro fuel
  induction fuel with
  | zero =>
    intro st hf hi hlen hw
    have : ¬ st.i < text.length := by omega
    exact ⟨st, by simp [scanLoop, this], rfl, by omega⟩
  | succ fuel ih =>
    intro st hf hi hlen hw
    unfold scanLoop
    split_ifs with hlt
    · obtain ⟨brk, st1, hs, hadv, hi1, hl1, hw1⟩ := scanStep_ok text st hlt hlen hw
      simp only [hs, Option.some_bind]
      cases brk with
      | true => exact ⟨st1, by simp, hl1, by omega⟩
      | false =>
        have hadv1 := hadv rfl
        obtain ⟨st2, h2, hl2, hw2⟩ := ih st1 (by omega) hi1 (by omega) hw1
        exact ⟨st2, by simpa using h2, by omega, hw2⟩
    · exact ⟨st, rfl, rfl, by omega⟩

/-- On a line whose syntax block is at least as long as its text `update_line_syntax` returns:
no access leaves the text or the block; text and block size are unchanged. -/
theorem update_line_syntax_ok (line : Line) (h : line.text.length ≤ line.syntaxArr.length) :
    ∃ l1, ( update_line_syntax line) = some l1 ∧ l1.text = line.text ∧
      l1.syntaxArr.length = line.syntaxArr.length := by
  obtain ⟨cleared, hcl, hlc, _⟩ := fillSyntax_spec (memsetInt SYNTAX_NORMAL) line.text.length 0
    line.syntaxArr (by omega)
  obtain ⟨st, hst, hls, hws⟩ := scanLoop_ok line.text line.text.length
    { i := 0, in_string := 0, in_multiline_comment := false, in_singleline_comment := false,
      current_word := [], syntaxArr := cleared } (by simp) (by simp) (by simp; omega) (by simp)
  obtain ⟨b, hb, hlb⟩ := markKeyword_ok st.current_word st.current_word.length line.text.length
    st.syntaxArr hws (by simp at hls; omega)
  unfold update_line_syntax clearSyntax
  simp only [Nat.cast_zero] at hcl
  simp only [hcl, hst, hb, Option.some_bind, Option.map_some']
  split_ifs
  · exact ⟨_, rfl, rfl, by simp at hls; simp; omega⟩
  · exact ⟨_, rfl, rfl, by simp at hls; simp; omega⟩

/-- The initial `memset` erases the previous content of a block as long as the text. -/
theorem clearSyntax_eq (text : List Char) (s1 s2 : List SyntaxType)
    (h1 : s1.length = text.length) (h2 : s2.length = text.length) :
    clearSyntax { text := text, syntaxArr := s1 } = clearSyntax { text := text, syntaxArr := s2 } := by
  obtain ⟨b1, hb1, hl1, hg1⟩ := fillSyntax_spec (memsetInt SYNTAX_NORMAL) text.length 0 s1 (by omega)
  obtain ⟨b2, hb2, hl2, hg2⟩ := fillSyntax_spec (memsetInt SYNTAX_NORMAL) text.length 0 s2 (by omega)
  simp only [Nat.cast_zero] at hb1 hb2
  simp only [clearSyntax, hb1, hb2]
  congr 1
  apply List.ext_getElem?
  intro k
  rw [hg1 k, hg2 k]
  split_ifs with hk
  · rfl
  · rw [List.getElem?_eq_none (by omega), List.getElem?_eq_none (by omega)]

/-- On a session whose cursor is valid `ensureCursorInBounds` changes nothing. -/
theorem ensureCursorInBounds_id (s : Session) (h : cursorInBounds s) :
    ensureCursorInBounds s = some s := by
  obtain ⟨h0, h1, line, hl, hx0, hx1⟩ := h
  unfold ensureCursorInBounds
  have e1 : ¬ s.gCursorY < 0 := by omega
  have e2 : ¬ s.gCursorY ≥ (s.gBuffer.length : Int) := by omega
  have e3 : ¬ s.gCursorX < 0 := by omega
  have e4 : ¬ s.gCursorX > (line.text.length : Int) := by omega
  simp only [e1, e2, if_false, hl, Option.map_some', e3, e4]

/-- Reading back the row that was just replaced gives the new line. -/
theorem lineAt_set (buf : List Line) (y : Int) (line : Line) (h0 : 0 ≤ y)
    (h1 : y < (buf.length : Int)) : lineAt (buf.set y.toNat line) y = some line := by
  have hlt : y.toNat < buf.length := by omega
  simp [lineAt, h0, hlt]

/-- A character array without a NUL is its own C string. -/
theorem cstr_eq_self (t : List Char) (h : ∀ c ∈ t, c ≠ Char.ofNat 0) : cstr t = t := by
  unfold cstr
  rw [List.takeWhile_eq_self_iff]
  intro x hx
  simp [h x hx]

/-- On unread input that is not empty `getline` returns a record and the rest; the record
either ends with the first line feed of the input or is the whole input, without a line feed. -/
theorem getline_spec : ∀ (cs : List Char) (c : Char),
    ∃ record rest1, getline (c :: cs) = some (record, rest1) ∧ record ++ rest1 = c :: cs ∧
      ((∃ r, record = r ++ ['\n'] ∧ '\n' ∉ r) ∨ (rest1 = [] ∧ '\n' ∉ record ∧ record ≠ [])) := by
  intro cs
  induction cs with
  | nil =>
    intro c
    by_cases hc : c = '\n'
    · subst hc
      exact ⟨['\n'], [], by simp [getline], rfl, Or.inl ⟨[], rfl, by simp⟩⟩
    · refine ⟨[c], [], by simp [getline, hc], rfl, Or.inr ⟨rfl, ?_, by simp⟩⟩
      simp
      exact fun h => hc h.symm
  | cons d ds ih =>
    intro c
    by_cases hc : c = '\n'
    · subst hc
      exact ⟨['\n'], d :: ds, by simp [getline], rfl, Or.inl ⟨[], rfl, by simp⟩⟩
    · obtain ⟨r1, rest1, hg, happ, hcase⟩ := ih d
      refine ⟨c :: r1, rest1, ?_, by simp [happ], ?_⟩
      · rw [getline]
        simp [hc, hg]
      · rcases hcase with ⟨r, hr, hn⟩ | ⟨he, hn, _⟩
        · refine Or.inl ⟨c :: r, by simp [hr], ?_⟩
          simp
          exact ⟨fun h => hc h.symm, hn⟩
        · refine Or.inr ⟨he, ?_, by simp⟩
          simp
          exact ⟨fun h => hc h.symm, hn⟩

/-- A record that ends with a line feed loses exactly that line feed. -/
theorem stripEol_lf (r : List Char) : stripEol (r ++ ['\n']) = r := by
  simp [stripEol, List.getLast?_concat]

/-- A record without line feed and carriage return is kept whole. -/
theorem stripEol_plain (record : List Char) (h1 : '\n' ∉ record) (h2 : '\r' ∉ record) :
    stripEol record = record := by
  unfold stripEol
  cases hl : record.getLast? with
  | none => rfl
  | some c =>
    have hm := List.mem_of_getLast?_eq_some hl
    have e1 : c ≠ '\n' := fun h => h1 (h ▸ hm)
    have e2 : c ≠ '\r' := fun h => h2 (h ▸ hm)
    simp [e1, e2]

/-- The loop of `loadFile` on input without NUL and carriage return: with one iteration per
character available it returns, the lines it appends contain no line feed, and writing them
out with a line feed after each gives the input, completed by a final line feed when the input
does not end with one. -/
theorem loadLoop_roundtrip : ∀ (fuel : Nat) (rest : List Char) (buf : List Line),
    rest.length ≤ fuel → (∀ c ∈ rest, c ≠ Char.ofNat 0 ∧ c ≠ '\r') →
    ∃ b, loadLoop fuel rest buf = some (buf ++ b) ∧
      (∀ l ∈ b, '\n' ∉ l.text) ∧
      (b.flatMap fun l => cstr l.text ++ ['\n']) =
        (if rest = [] ∨ rest.getLast? = some '\n' then rest else rest ++ ['\n']) := by
  intro fuel
  induction fuel with
  | zero =>
    intro rest buf hlen _
    have : rest = [] := List.length_eq_zero.mp (by omega)
    subst this
    exact ⟨[], by simp [loadLoop], by simp, by simp⟩
  | succ fuel ih =>
    intro rest buf hlen hclean
    cases rest with
    | nil => exact ⟨[], by simp [loadLoop, getline], by simp, by simp⟩
    | cons c cs =>
      obtain ⟨record, rest1, hg, happ, hcase⟩ := getline_spec cs c
      have hrec : ∀ x ∈ record, x ≠ Char.ofNat 0 ∧ x ≠ '\r' := by
        intro x hx
        exact hclean x (by rw [← happ]; exact List.mem_append_left _ hx)
      have hr1 : ∀ x ∈ rest1, x ≠ Char.ofNat 0 ∧ x ≠ '\r' := by
        intro x hx
        exact hclean x (by rw [← happ]; exact List.mem_append_right _ hx)
      have hne : record ≠ [] := by
        rcases hcase with ⟨r, hr, _⟩ | ⟨_, _, h⟩
        · simp [hr]
        · exact h
      have hl1 : rest1.length ≤ fuel := by
        have h1 : (record ++ rest1).length = (c :: cs).length := by rw [happ]
        have h2 : 0 < record.length := List.length_pos.mpr hne
        simp at h1 hlen
        omega
      obtain ⟨b1, hb1, hnl1, hout1⟩ := ih rest1 (appendLine buf (stripEol record)) hl1 hr1
      refine ⟨newLine (stripEol record) :: b1, ?_, ?_, ?_⟩
      · rw [loadLoop]
        simp only [hg]
        rw [hb1]
        simp [appendLine]
      · rcases hcase with ⟨r, hr, hn⟩ | ⟨he, hn, _⟩
        · intro l hl
          rcases List.mem_cons.mp hl with h | h
          · subst h
            have hr0 : ∀ x ∈ r, x ≠ Char.ofNat 0 := fun x hx =>
              (hrec x (by rw [hr]; exact List.mem_append_left _ hx)).1
            simp only [hr, stripEol_lf, newLine, cstr_eq_self r hr0]
            exact hn
          · exact hnl1 l h
        · intro l hl
          rcases List.mem_cons.mp hl with h | h
          · subst h
            have hcr : '\r' ∉ record := fun hm => (hrec _ hm).2 rfl
            have hr0 : ∀ x ∈ record, x ≠ Char.ofNat 0 := fun x hx => (hrec x hx).1
            simp only [stripEol_plain record hn hcr, newLine, cstr_eq_self record hr0]
            exact hn
          · exact hnl1 l h
      · rw [List.flatMap_cons, hout1, ← happ]
        rcases hcase with ⟨r, hr, hn⟩ | ⟨he, hn, _⟩
        · have hr0 : ∀ x ∈ r, x ≠ Char.ofNat 0 := fun x hx =>
            (hrec x (by rw [hr]; exact List.mem_append_left _ hx)).1
          simp only [hr, stripEol_lf, newLine, cstr_eq_self r hr0]
          by_cases h1 : rest1 = []
          · subst h1
            simp [List.getLast?_concat]
          · obtain ⟨a, as, has⟩ := List.exists_cons_of_ne_nil h1
            subst has
            have hlast : (r ++ ['\n'] ++ a :: as).getLast? = (a :: as).getLast? := by
              rw [List.getLast?_append_cons]
            simp only [hlast]
            by_cases h2 : (a :: as).getLast? = some '\n'
            · simp [h2]
            · simp [h2]
        · have hcr : '\r' ∉ record := fun hm => (hrec _ hm).2 rfl
          have hr0 : ∀ x ∈ record, x ≠ Char.ofNat 0 := fun x hx => (hrec x hx).1
          subst he
          have hlast : ¬ record.getLast? = some '\n' := fun h =>
            hn (List.mem_of_getLast?_eq_some h)
          simp [stripEol_plain record hn hcr, newLine, cstr_eq_self record hr0, cstr_eq_self,
            hne, hlast]

/-- A write at an index given as a natural number. -/
theorem writeSyntax_nat (block : List SyntaxType) (j : Int) (n : Nat) (v : SyntaxType)
    (hj : j = (n : Int)) (h : n < block.length) :
    writeSyntax block j v = some (block.set n v) := by
  subst hj
  simp [writeSyntax, h]

/-- The keyword search changes only cells of the range it marks, and those become
`SYNTAX_KEYWORD`. -/
theorem markKeyword_cells (word : List Char) (wl i : Nat) (block : List SyntaxType)
    (hw : wl ≤ i) (hi : i ≤ block.length) :
    ∃ b, markKeyword word ((i : Int) - (wl : Int)) (i : Int) block = some b ∧
      b.length = block.length ∧
      ∀ k, b[k]? = block[k]? ∨ (i - wl ≤ k ∧ k < i ∧ b[k]? = some SYNTAX_KEYWORD) := by
  unfold markKeyword
  split_ifs
  · have h1 : ((i : Int) - ((i : Int) - (wl : Int))).toNat = wl := by omega
    have h2 : ((i : Int) - (wl : Int)) = ((i - wl : Nat) : Int) := by omega
    rw [h1, h2]
    obtain ⟨b, hb, hlen, hget⟩ := fillSyntax_spec SYNTAX_KEYWORD wl (i - wl) block (by omega)
    refine ⟨b, hb, hlen, ?_⟩
    intro k
    rw [hget k]
    split_ifs with hk
    · exact Or.inr ⟨hk.1, by omega, rfl⟩
    · exact Or.inl rfl
  · exact ⟨block, rfl, rfl, fun k => Or.inl rfl⟩

/-- The word branch in detail: `i` moves forward by one, the flags are kept, a letter or
underscore lengthens the word by at most one and anything else empties it, and the only cells
that change are cells of the word, which become `SYNTAX_KEYWORD`. -/
theorem wordStep_cells (c : Char) (st : Scan) (hw : st.current_word.length ≤ st.i)
    (hi : st.i ≤ st.syntaxArr.length) :
    ∃ st1, wordStep c st = some st1 ∧ st1.i = st.i + 1 ∧
      st1.syntaxArr.length = st.syntaxArr.length ∧
      st1.in_string = st.in_string ∧ st1.in_multiline_comment = st.in_multiline_comment ∧
      st1.in_singleline_comment = st.in_singleline_comment ∧
      ((isalpha c || c == '_') = true →
        st.current_word.length ≤ st1.current_word.length ∧
        st1.current_word.length ≤ st.current_word.length + 1 ∧
        st1.syntaxArr = st.syntaxArr) ∧
      ((isalpha c || c == '_') = false → st1.current_word = []) ∧
      ∀ k, st1.syntaxArr[k]? = st.syntaxArr[k]? ∨
        (st.i - st.current_word.length ≤ k ∧ k < st.i ∧
          st1.syntaxArr[k]? = some SYNTAX_KEYWORD) := by
  unfold wordStep
  split_ifs with h1 h2 h3
  · exact ⟨_, rfl, rfl, rfl, rfl, rfl, rfl, fun _ => ⟨by simp, by simp, rfl⟩,
      fun h => by simp [h1] at h, fun k => Or.inl rfl⟩
  · exact ⟨_, rfl, rfl, rfl, rfl, rfl, rfl, fun _ => ⟨by simp, by simp, rfl⟩,
      fun h => by simp [h1] at h, fun k => Or.inl rfl⟩
  · obtain ⟨b, hb, hlen, hget⟩ := markKeyword_cells st.current_word st.current_word.length st.i
      st.syntaxArr hw hi
    rw [hb]
    exact ⟨_, rfl, rfl, hlen, rfl, rfl, rfl, fun h => by simp [h] at h1, fun _ => rfl, hget⟩
  · have hz : st.current_word = [] := List.length_eq_zero.mp (by omega)
    exact ⟨_, rfl, rfl, rfl, rfl, rfl, rfl, fun h => by simp [h] at h1, fun _ => hz,
      fun k => Or.inl rfl⟩

/-- The word branch never changes a cell before the pending word and never moves the start of
the pending word backwards. -/
theorem wordStep_frame (c : Char) (st : Scan) (hw : st.current_word.length ≤ st.i)
    (hi : st.i ≤ st.syntaxArr.length) :
    ∃ st1, wordStep c st = some st1 ∧ st1.i = st.i + 1 ∧
      st1.syntaxArr.length = st.syntaxArr.length ∧ st1.current_word.length ≤ st1.i ∧
      st.i - st.current_word.length ≤ st1.i - st1.current_word.length ∧
      ∀ k, k < st.i - st.current_word.length → st1.syntaxArr[k]? = st.syntaxArr[k]? := by
  obtain ⟨st1, h1, hi1, hl1, _, _, _, hlet, hnot, hget⟩ := wordStep_cells c st hw hi
  have hwp : st1.current_word.length ≤ st.current_word.length + 1 := by
    cases hb : (isalpha c || c == '_') with
    | true => exact (hlet hb).2.1
    | false => simp [hnot hb]
  refine ⟨st1, h1, hi1, hl1, by omega, by omega, ?_⟩
  intro k hk
  rcases hget k with h | ⟨h, _, _⟩
  · exact h
  · omega

/-- The part of the loop body after the quote test never changes a cell before the pending word
and never moves the start of the pending word backwards. -/
theorem codeStep_frame (text : List Char) (c : Char) (st : Scan)
    (hc : text[st.i]? = some c) (hi : st.i < text.length)
    (hlen : text.length ≤ st.syntaxArr.length) (hw : st.current_word.length ≤ st.i) :
    ∃ brk st1, codeStep text c st = some (brk, st1) ∧ (brk = false → st.i < st1.i) ∧
      st1.i ≤ text.length ∧ st1.syntaxArr.length = st.syntaxArr.length ∧
      st1.current_word.length ≤ st1.i ∧
      st.i - st.current_word.length ≤ st1.i - st1.current_word.length ∧
      ∀ k, k < st.i - st.current_word.length → st1.syntaxArr[k]? = st.syntaxArr[k]? := by
  obtain ⟨star, hs, hsl⟩ := pairAt_ok text st.i c '/' '*'
  obtain ⟨slash, hq, hql⟩ := pairAt_ok text st.i c '/' '/'
  obtain ⟨num, hn, hnd⟩ := startsNumber_ok text st.i c hi
  have hj := scanDigits_bounds text (text.length - st.i) st.i (by omega)
  obtain ⟨fin, hf⟩ := endsNumber_ok text _ hj.2
  obtain ⟨st1, hw1, hi1, hl1, hc1, hlow1, hfr1⟩ := wordStep_frame c st hw (by omega)
  unfold codeStep
  simp only [hs, hq, hn, hf, hw1, Option.some_bind, Option.map_some']
  split_ifs with h1 h2 h3 h4
  · have := hsl h1
    have hb1 := writeSyntax_nat st.syntaxArr (st.i : Int) st.i SYNTAX_COMMENT rfl (by omega)
    have hb2 := writeSyntax_nat (st.syntaxArr.set st.i SYNTAX_COMMENT) ((st.i : Int) + 1)
      (st.i + 1) SYNTAX_COMMENT (by push_cast; rfl) (by simp; omega)
    simp only [hb1, hb2, Option.some_bind, Option.map_some']
    refine ⟨_, _, rfl, fun _ => by simp, by simp; omega, by simp, by simp; omega,
      by simp; omega, ?_⟩
    intro k hk
    have e1 : st.i + 1 ≠ k := by omega
    have e2 : st.i ≠ k := by omega
    simp [List.getElem?_set, e1, e2]
  · obtain ⟨b, hb, hlb, hget⟩ := fillSyntax_spec (memsetInt SYNTAX_COMMENT) (text.length - st.i) st.i
      st.syntaxArr (by omega)
    simp only [hb, Option.map_some']
    refine ⟨_, _, rfl, fun h => by simp at h, by simp; omega, by simp; omega,
      by simpa using hw, by simp, ?_⟩
    intro k hk
    have e : ¬ (st.i ≤ k ∧ k < st.i + (text.length - st.i)) := by omega
    simp [hget k, e]
  · have hadv := scanDigits_advances text (text.length - st.i) st.i c hc (hnd h3) hi (by omega)
    obtain ⟨b, hb, hlb, hget⟩ := fillSyntax_spec SYNTAX_NUMBER
      (scanDigits text (text.length - st.i) st.i - st.i) st.i st.syntaxArr (by omega)
    simp only [hb, Option.map_some']
    refine ⟨_, _, rfl, fun _ => by simp; omega, by simp; omega, by simp; omega,
      by simp; omega, by simp; omega, ?_⟩
    intro k hk
    have e : ¬ (st.i ≤ k ∧ k < st.i + (scanDigits text (text.length - st.i) st.i - st.i)) := by
      omega
    simp [hget k, e]
  · exact ⟨_, _, rfl, fun _ => by omega, by omega, hl1, hc1, hlow1, hfr1⟩
  · exact ⟨_, _, rfl, fun _ => by omega, by omega, hl1, hc1, hlow1, hfr1⟩

/-- One iteration of the loop never changes a cell before the pending word and never moves the
start of the pending word backwards. -/
theorem scanStep_frame (text : List Char) (st : Scan) (hi : st.i < text.length)
    (hlen : text.length ≤ st.syntaxArr.length) (hw : st.current_word.length ≤ st.i) :
    ∃ brk st1, scanStep text st = some (brk, st1) ∧ (brk = false → st.i < st1.i) ∧
      st1.i ≤ text.length ∧ st1.syntaxArr.length = st.syntaxArr.length ∧
      st1.current_word.length ≤ st1.i ∧
      st.i - st.current_word.length ≤ st1.i - st1.current_word.length ∧
      ∀ k, k < st.i - st.current_word.length → st1.syntaxArr[k]? = st.syntaxArr[k]? := by
  have hc : text[st.i]? = some text[st.i] := List.getElem?_eq_getElem hi
  have hb1 := writeSyntax_nat st.syntaxArr (st.i : Int) st.i SYNTAX_COMMENT rfl (by omega)
  have hb3 := writeSyntax_nat st.syntaxArr (st.i : Int) st.i SYNTAX_STRING rfl (by omega)
  obtain ⟨slash, hq, hql⟩ := pairAt_ok text st.i text[st.i] '*' '/'
  have one : ∀ v : SyntaxType, ∀ k, k < st.i - st.current_word.length →
      (st.syntaxArr.set st.i v)[k]? = st.syntaxArr[k]? := by
    intro v k hk
    have e : st.i ≠ k := by omega
    simp [List.getElem?_set, e]
  have two : ∀ v : SyntaxType, ∀ k, k < st.i - st.current_word.length →
      ((st.syntaxArr.set st.i v).set (st.i + 1) v)[k]? = st.syntaxArr[k]? := by
    intro v k hk
    have e1 : st.i + 1 ≠ k := by omega
    have e2 : st.i ≠ k := by omega
    simp [List.getElem?_set, e1, e2]
  unfold scanStep
  simp only [hc, hb1, hb3, hq, Option.some_bind, Option.map_some']
  split_ifs with h1 h2 h3 h4 h5 h6 h7
  · exact ⟨_, _, rfl, fun _ => by simp, by simp; omega, by simp, by simp; omega,
      by simp; omega, one _⟩
  · have := hql h3
    have hb2 := writeSyntax_nat (st.syntaxArr.set st.i SYNTAX_COMMENT) ((st.i : Int) + 1)
      (st.i + 1) SYNTAX_COMMENT (by push_cast; rfl) (by simp; omega)
    simp only [hb2, Option.map_some']
    exact ⟨_, _, rfl, fun _ => by simp, by simp; omega, by simp, by simp; omega,
      by simp; omega, two _⟩
  · exact ⟨_, _, rfl, fun _ => by simp, by simp; omega, by simp, by simp; omega,
      by simp; omega, one _⟩
  · have hlt : st.i < text.length - 1 := by simp at h5; exact h5.2
    have hb2 := writeSyntax_nat (st.syntaxArr.set st.i SYNTAX_STRING) ((st.i : Int) + 1)
      (st.i + 1) SYNTAX_STRING (by push_cast; rfl) (by simp; omega)
    simp only [hb2, Option.map_some']
    exact ⟨_, _, rfl, fun _ => by simp, by simp; omega, by simp, by simp; omega,
      by simp; omega, two _⟩
  · exact ⟨_, _, rfl, fun _ => by simp, by simp; omega, by simp, by simp; omega,
      by simp; omega, one _⟩
  · exact ⟨_, _, rfl, fun _ => by simp, by simp; omega, by simp, by simp; omega,
      by simp; omega, one _⟩
  · exact ⟨_, _, rfl, fun _ => by simp, by simp; omega, by simp, by simp; omega,
      by simp; omega, one _⟩
  · exact codeStep_frame text _ st hc hi hlen hw

/-- The loop never changes a cell before the word that is pending when it is entered, and the
word pending at its end starts no earlier. -/
theorem scanLoop_frame (text : List Char) :
    ∀ (fuel : Nat) (st : Scan), text.length ≤ fuel + st.i → st.i ≤ text.length →
      text.length ≤ st.syntaxArr.length → st.current_word.length ≤ st.i →
      ∃ st1, scanLoop text fuel st = some st1 ∧
        st1.syntaxArr.length = st.syntaxArr.length ∧ st1.current_word.length ≤ text.length ∧
        st.i - st.current_word.length ≤ text.length - st1.current_word.length ∧
        ∀ k, k < st.i - st.current_word.length → st1.syntaxArr[k]? = st.syntaxArr[k]? := by
  intro fuel
  induction fuel with
  | zero =>
    intro st hf hi hlen hw
    have : ¬ st.i < text.length := by omega
    exact ⟨st, by simp [scanLoop, this], rfl, by omega, by omega, fun _ _ => rfl⟩
  | succ fuel ih =>
    intro st hf hi hlen hw
    unfold scanLoop
    split_ifs with hlt
    · obtain ⟨brk, st1, hs, hadv, hi1, hl1, hw1, hlow1, hfr1⟩ :=
        scanStep_frame text st hlt hlen hw
      simp only [hs, Option.some_bind]
      cases brk with
      | true => exact ⟨st1, by simp, hl1, by omega, by omega, hfr1⟩
      | false =>
        have hadv1 := hadv rfl
        obtain ⟨st2, h2, hl2, hw2, hlow2, hfr2⟩ := ih st1 (by omega) hi1 (by omega) hw1
        refine ⟨st2, by simpa using h2, by omega, hw2, by omega, ?_⟩
        intro k hk
        rw [hfr2 k (by omega), hfr1 k hk]
    · exact ⟨st, rfl, rfl, by omega, by omega, fun _ _ => rfl⟩

/-- Characters with the same code are equal. -/
theorem char_eq_of_toNat_eq (c q : Char) (h : c.toNat = q.toNat) : c = q := by
  rw [← Char.ofNat_toNat c, ← Char.ofNat_toNat q, h]

/-- A backslash takes the character after it into the literal. -/
theorem literalEnd_escape (q d : Char) (rest : List Char) :
    literalEnd q ('\\' :: d :: rest) = literalEnd q rest + 2 := by
  unfold literalEnd
  simp only [closingQuote, if_true]
  cases closingQuote q rest <;> simp

/-- A backslash at the end of the line is an ordinary character of the literal. -/
theorem literalEnd_last_backslash (q : Char) : literalEnd q ['\\'] = 1 := by
  simp [literalEnd, closingQuote]

/-- The quote character closes the literal. -/
theorem literalEnd_quote (q : Char) (rest : List Char) (hq : q ≠ '\\') :
    literalEnd q (q :: rest) = 1 := by
  cases rest <;> simp [literalEnd, closingQuote, hq]

/-- Any other character belongs to the literal, which goes on after it. -/
theorem literalEnd_other (q c : Char) (rest : List Char) (h1 : c ≠ '\\') (h2 : c ≠ q) :
    literalEnd q (c :: rest) = literalEnd q rest + 1 := by
  cases rest with
  | nil => simp [literalEnd, closingQuote, h1, h2]
  | cons d rest =>
    unfold literalEnd
    simp only [closingQuote, h1, h2, if_false]
    cases closingQuote q (d :: rest) <;> simp

/-- One iteration of the loop inside a literal (muks.c:212-224). -/
theorem scanStep_in_string (text : List Char) (st : Scan) (hi : st.i < text.length)
    (hlen : text.length ≤ st.syntaxArr.length) (hs : st.in_string ≠ 0)
    (h1 : st.in_singleline_comment = false) (h2 : st.in_multiline_comment = false) :
    scanStep text st = some (false,
      if text[st.i] = '\\' ∧ st.i < text.length - 1 then
        { st with syntaxArr := (st.syntaxArr.set st.i SYNTAX_STRING).set (st.i + 1) SYNTAX_STRING,
                  i := st.i + 2 }
      else if text[st.i].toNat = st.in_string then
        { st with syntaxArr := st.syntaxArr.set st.i SYNTAX_STRING, in_string := 0,
                  i := st.i + 1 }
      else { st with syntaxArr := st.syntaxArr.set st.i SYNTAX_STRING, i := st.i + 1 }) := by
  have hc : text[st.i]? = some text[st.i] := List.getElem?_eq_getElem hi
  have hb3 := writeSyntax_nat st.syntaxArr (st.i : Int) st.i SYNTAX_STRING rfl (by omega)
  unfold scanStep
  simp only [hc, hb3, h1, h2, Option.some_bind, Option.map_some']
  simp only [hs, ne_eq, not_false_eq_true, if_true, Bool.false_eq_true, if_false]
  by_cases hbs : text[st.i] = '\\' ∧ st.i < text.length - 1
  · have hb2 := writeSyntax_nat (st.syntaxArr.set st.i SYNTAX_STRING) ((st.i : Int) + 1)
      (st.i + 1) SYNTAX_STRING (by push_cast; rfl) (by simp; omega)
    simp [hbs, hb2]
  · have hbs2 : ¬ ((text[st.i] == '\\' && decide (st.i < text.length - 1)) = true) := by
      simpa using hbs
    by_cases ht : text[st.i].toNat = st.in_string
    · simp [hbs, hbs2, ht]
    · simp [hbs, hbs2, ht]

/-- The loop from a state inside a literal opened by `q`, with every cell before `i` already
`SYNTAX_STRING`: it returns, and every cell of the literal is `SYNTAX_STRING` at the end and
lies before the word that is pending then. -/
theorem scanLoop_in_string (text : List Char) (q : Char) (hq0 : q.toNat ≠ 0) (hq : q ≠ '\\') :
    ∀ (fuel : Nat) (st : Scan), text.length ≤ fuel + st.i → st.i ≤ text.length →
      text.length ≤ st.syntaxArr.length → st.in_string = q.toNat →
      st.in_singleline_comment = false → st.in_multiline_comment = false →
      st.current_word = [] → (∀ k, k < st.i → st.syntaxArr[k]? = some SYNTAX_STRING) →
      ∃ st1, scanLoop text fuel st = some st1 ∧
        st1.syntaxArr.length = st.syntaxArr.length ∧ st1.current_word.length ≤ text.length ∧
        ∀ k, k < st.i + literalEnd q (text.drop st.i) →
          k < text.length - st1.current_word.length ∧
          st1.syntaxArr[k]? = some SYNTAX_STRING := by
  intro fuel
  induction fuel with
  | zero =>
    intro st hf hi hlen hs h1 h2 hw hcells
    have hge : ¬ st.i < text.length := by omega
    have hd : text.drop st.i = [] := List.drop_eq_nil_of_le (by omega)
    refine ⟨st, by simp [scanLoop, hge], rfl, by simp [hw], ?_⟩
    intro k hk
    simp only [hd, literalEnd, closingQuote, List.length_nil, Nat.add_zero] at hk
    exact ⟨by simp [hw]; omega, hcells k hk⟩
  | succ fuel ih =>
    intro st hf hi hlen hs h1 h2 hw hcells
    by_cases hlt : st.i < text.length
    · have hstep := scanStep_in_string text st hlt hlen (by rw [hs]; exact hq0) h1 h2
      have hdrop : text.drop st.i = text[st.i] :: text.drop (st.i + 1) :=
        List.drop_eq_getElem_cons hlt
      by_cases hA : text[st.i] = '\\' ∧ st.i < text.length - 1
      · rw [if_pos hA] at hstep
        have hlt1 : st.i + 1 < text.length := by omega
        have hdrop1 : text.drop (st.i + 1) = text[st.i + 1] :: text.drop (st.i + 2) :=
          List.drop_eq_getElem_cons hlt1
        obtain ⟨st1, hr, hl1, hw1, hc1⟩ := ih
          { st with
            syntaxArr := (st.syntaxArr.set st.i SYNTAX_STRING).set (st.i + 1) SYNTAX_STRING,
            i := st.i + 2 }
          (by simp; omega) (by simp; omega) (by simp; omega) hs h1 h2 hw
          (by
            intro k hk
            simp only [List.getElem?_set, List.length_set]
            by_cases e1 : st.i + 1 = k
            · simp [e1]; omega
            · by_cases e2 : st.i = k
              · simp [e1, e2]; omega
              · simp only [e1, e2, if_false]
                exact hcells k (by simp at hk; omega))
        refine ⟨st1, ?_, by simpa using hl1, hw1, ?_⟩
        · simp only [scanLoop, hlt, if_true, hstep, Option.some_bind]
          exact hr
        · intro k hk
          apply hc1 k
          rw [hdrop, hdrop1, hA.1, literalEnd_escape] at hk
          simp only []
          omega
      · rw [if_neg hA] at hstep
        by_cases hB : text[st.i].toNat = st.in_string
        · rw [if_pos hB] at hstep
          have hcq : text[st.i] = q := char_eq_of_toNat_eq _ _ (by rw [hB, hs])
          obtain ⟨st1, hr, hl1, hw1, hlow1, hfr1⟩ := scanLoop_frame text fuel
            { st with syntaxArr := st.syntaxArr.set st.i SYNTAX_STRING, in_string := 0,
                      i := st.i + 1 }
            (by simp; omega) (by simp; omega) (by simp; omega) (by simp [hw])
          refine ⟨st1, ?_, by simpa using hl1, hw1, ?_⟩
          · simp only [scanLoop, hlt, if_true, hstep, Option.some_bind]
            exact hr
          · intro k hk
            rw [hdrop, hcq, literalEnd_quote q _ hq] at hk
            simp only [hw, List.length_nil, Nat.sub_zero] at hlow1 hfr1
            refine ⟨by omega, ?_⟩
            rw [hfr1 k hk, List.getElem?_set]
            by_cases e2 : st.i = k
            · simp [e2]; omega
            · simp only [e2, if_false]
              exact hcells k (by omega)
        · rw [if_neg hB] at hstep
          have hne : text[st.i] ≠ q := fun h => hB (by rw [h, hs])
          have hle : literalEnd q (text.drop st.i) = literalEnd q (text.drop (st.i + 1)) + 1 := by
            rw [hdrop]
            by_cases hb : text[st.i] = '\\'
            · have hlast : ¬ st.i < text.length - 1 := fun h => hA ⟨hb, h⟩
              have hd : text.drop (st.i + 1) = [] := List.drop_eq_nil_of_le (by omega)
              rw [hb, hd, literalEnd_last_backslash]
              simp [literalEnd, closingQuote]
            · exact literalEnd_other q _ _ hb hne
          obtain ⟨st1, hr, hl1, hw1, hc1⟩ := ih
            { st with syntaxArr := st.syntaxArr.set st.i SYNTAX_STRING, i := st.i + 1 }
            (by simp; omega) (by simp; omega) (by simp; omega) hs h1 h2 hw
            (by
              intro k hk
              rw [List.getElem?_set]
              by_cases e2 : st.i = k
              · simp [e2]; omega
              · simp only [e2, if_false]
                exact hcells k (by simp at hk; omega))
          refine ⟨st1, ?_, by simpa using hl1, hw1, ?_⟩
          · simp only [scanLoop, hlt, if_true, hstep, Option.some_bind]
            exact hr
          · intro k hk
            apply hc1 k
            rw [hle] at hk
            simp only []
            omega
    · have hd : text.drop st.i = [] := List.drop_eq_nil_of_le (by omega)
      refine ⟨st, by simp [scanLoop, hlt], rfl, by simp [hw], ?_⟩
      intro k hk
      simp only [hd, literalEnd, closingQuote, List.length_nil, Nat.add_zero] at hk
      exact ⟨by simp [hw]; omega, hcells k hk⟩

/-- One iteration of the loop on an opening quote (muks.c:225-230). -/
theorem scanStep_open_quote (text : List Char) (st : Scan) (hi : st.i < text.length)
    (hlen : text.length ≤ st.syntaxArr.length) (hs : st.in_string = 0)
    (h1 : st.in_singleline_comment = false) (h2 : st.in_multiline_comment = false)
    (hq : text[st.i] = '"' ∨ text[st.i] = '\'') :
    scanStep text st = some (false,
      { st with syntaxArr := st.syntaxArr.set st.i SYNTAX_STRING,
                in_string := text[st.i].toNat, i := st.i + 1 }) := by
  have hc : text[st.i]? = some text[st.i] := List.getElem?_eq_getElem hi
  have hb3 := writeSyntax_nat st.syntaxArr (st.i : Int) st.i SYNTAX_STRING rfl (by omega)
  have hq2 : (text[st.i] == '"' || text[st.i] == '\'') = true := by
    rcases hq with h | h <;> simp [h]
  unfold scanStep
  simp only [hc, hb3, h1, h2, hs, hq2, Option.some_bind, Option.map_some']
  simp

/-- A digit is neither a letter nor an underscore. -/
theorem digit_not_letter (c : Char) (h : isdigit c = true) :
    (isalpha c || c == '_') = false := by
  simp only [isdigit, Char.isDigit, Bool.and_eq_true, decide_eq_true_eq] at h
  have h1 : 48 ≤ c.toNat := by
    have := h.1
    rw [ge_iff_le, UInt32.le_def] at this
    exact this
  have h2 : c.toNat ≤ 57 := by
    have := h.2
    rw [UInt32.le_def] at this
    exact this
  have e3 : c ≠ '_' := by
    intro he
    rw [he] at h1 h2
    revert h2
    decide
  have e1 : ¬ (65 : UInt32) ≤ c.val := by
    rw [UInt32.le_def]
    show ¬ 65 ≤ c.toNat
    omega
  have e2 : ¬ (97 : UInt32) ≤ c.val := by
    rw [UInt32.le_def]
    show ¬ 97 ≤ c.toNat
    omega
  simp [isalpha, Char.isAlpha, Char.isUpper, Char.isLower, e1, e2, e3]

/-- The digit scan stops at the end of the run of digits it starts in. -/
theorem scanDigits_run (text : List Char) :
    ∀ (fuel j : Nat), text.length ≤ fuel + j → j ≤ text.length →
      (∀ m, j ≤ m → m < scanDigits text fuel j → ∃ d, text[m]? = some d ∧ isdigit d = true) ∧
      (scanDigits text fuel j = text.length ∨
        ∃ n, text[scanDigits text fuel j]? = some n ∧ isdigit n = false) := by
  intro fuel
  induction fuel with
  | zero =>
    intro j hf hj
    have : j = text.length := by omega
    simp only [scanDigits]
    exact ⟨fun m h1 h2 => by omega, Or.inl this⟩
  | succ fuel ih =>
    intro j hf hj
    unfold scanDigits
    cases hd : text[j]? with
    | none =>
      have hge : text.length ≤ j := by
        by_contra hn
        rw [List.getElem?_eq_getElem (by omega)] at hd
        cases hd
      simp only []
      exact ⟨fun m h1 h2 => by omega, Or.inl (by omega)⟩
    | some d =>
      have hlt : j < text.length := by
        by_contra hn
        rw [List.getElem?_eq_none (by omega)] at hd
        cases hd
      simp only []
      by_cases hdig : isdigit d = true
      · simp only [hdig, if_true]
        obtain ⟨h1, h2⟩ := ih (j + 1) (by omega) (by omega)
        refine ⟨?_, h2⟩
        intro m hm1 hm2
        by_cases e : m = j
        · subst e
          exact ⟨d, hd, hdig⟩
        · exact h1 m (by omega) hm2
      · have hdf : isdigit d = false := by simpa using hdig
        simp only [hdf, Bool.false_eq_true, if_false]
        exact ⟨fun m h1 h2 => by omega, Or.inr ⟨d, hd, hdf⟩⟩

/-- A number position holds a digit. -/
theorem NumberAt_digit (text : List Char) (k : Nat) (h : NumberAt text k) :
    ∃ d, text[k]? = some d ∧ isdigit d = true := by
  obtain ⟨s, e, h1, h2, _, hrun, _, _⟩ := h
  exact hrun k h1 h2

/-- A position that holds a letter or an underscore is not a number position. -/
theorem not_NumberAt_of_letter (text : List Char) (k : Nat) (c : Char)
    (hc : text[k]? = some c) (hl : (isalpha c || c == '_') = true) : ¬ NumberAt text k := by
  intro h
  obtain ⟨d, hd, hdig⟩ := NumberAt_digit text k h
  rw [hc] at hd
  cases hd
  rw [digit_not_letter c hdig] at hl
  cases hl

/-- When the test for the start of a number fails at `i`, and `i` does not continue a run of
digits accepted as a number, `i` is not a number position. -/
theorem not_NumberAt_of_start (text : List Char) (i : Nat) (c : Char)
    (hc : text[i]? = some c) (hs : startsNumber text i c = some false)
    (hprev : 0 < i → ∀ p, text[i - 1]? = some p → isdigit p = true → isdigit c = true →
      ¬ NumberAt text (i - 1)) :
    ¬ NumberAt text i := by
  intro h
  obtain ⟨d, hd, hdig⟩ := NumberAt_digit text i h
  rw [hc] at hd
  cases hd
  obtain ⟨s, e, h1, h2, h3, hrun, hpre, hpost⟩ := h
  unfold startsNumber at hs
  simp only [hdig, if_true] at hs
  by_cases hi0 : i = 0
  · simp [hi0] at hs
  · simp only [hi0, if_false] at hs
    cases hp : text[i - 1]? with
    | none => simp [hp] at hs
    | some p =>
      simp only [hp, Option.map_some', Option.some.injEq, Bool.not_eq_false'] at hs
      by_cases hsi : s = i
      · subst hsi
        rcases hpre with h0 | ⟨p2, hp2, hid⟩
        · exact hi0 h0
        · rw [hp] at hp2
          cases hp2
          rw [hs] at hid
          cases hid
      · have hs1 : s ≤ i - 1 := by omega
        obtain ⟨d2, hd2, hdig2⟩ := hrun (i - 1) hs1 (by omega)
        rw [hp] at hd2
        cases hd2
        exact hprev (by omega) p hp hdig2 hdig
          ⟨s, e, hs1, by omega, h3, hrun, hpre, hpost⟩

/-- When a run of digits that starts at `i` is followed by a letter or an underscore, `i` is not
a number position. -/
theorem not_NumberAt_of_end (text : List Char) (i j : Nat) (hij : i ≤ j)
    (hrun : ∀ m, i ≤ m → m < j → ∃ d, text[m]? = some d ∧ isdigit d = true)
    (he : endsNumber text j = some false) : ¬ NumberAt text i := by
  intro h
  obtain ⟨s, e, h1, h2, h3, hrun2, hpre, hpost⟩ := h
  unfold endsNumber at he
  by_cases hjl : j = text.length
  · simp [hjl] at he
  · simp only [hjl, if_false] at he
    cases hn : text[j]? with
    | none => simp [hn] at he
    | some n =>
      simp only [hn, Option.map_some', Option.some.injEq, Bool.not_eq_false'] at he
      have hnd : isdigit n = false := by
        cases hx : isdigit n with
        | false => rfl
        | true =>
          rw [digit_not_letter n hx] at he
          cases he
      have hje : e = j := by
        rcases Nat.lt_trichotomy e j with hlt | heq | hgt
        · exfalso
          obtain ⟨d, hd, hdig⟩ := hrun e (by omega) hlt
          rcases hpost with hel | ⟨n2, hn2, hnd2, _⟩
          · have : j < text.length := by
              by_contra hc
              rw [List.getElem?_eq_none (by omega)] at hn
              cases hn
            omega
          · rw [hd] at hn2
            cases hn2
            rw [hdig] at hnd2
            cases hnd2
        · exact heq
        · exfalso
          obtain ⟨d, hd, hdig⟩ := hrun2 j (by omega) hgt
          rw [hn] at hd
          cases hd
          rw [hdig] at hnd
          cases hnd
      subst hje
      rcases hpost with hel | ⟨n2, hn2, _, hl2⟩
      · exact hjl hel
      · rw [hn] at hn2
        cases hn2
        rw [he] at hl2
        cases hl2

/-- The word branch at a position that is not a number position keeps the loop state in line
with the description. -/
theorem NumberInv_word (text : List Char) (st : Scan) (c : Char) (hinv : NumberInv text st)
    (hlt : st.i < text.length) (hc : text[st.i]? = some c) (hnot : ¬ NumberAt text st.i) :
    ∃ st1, wordStep c st = some st1 ∧ st1.i = st.i + 1 ∧ NumberInv text st1 := by
  obtain ⟨hi, hlen, hs, hm, hsl, hw, hb, hn, hd, hf, he⟩ := hinv
  obtain ⟨st1, h1, hi1, hl1, hs1, hm1, hsl1, hlet, hnl, hget⟩ :=
    wordStep_cells c st hw (by omega)
  have hwp : st1.current_word.length ≤ st.current_word.length + 1 := by
    cases hx : (isalpha c || c == '_') with
    | true => exact (hlet hx).2.1
    | false => simp [hnl hx]
  refine ⟨st1, h1, hi1, by omega, by omega, by rw [hs1, hs], by rw [hm1, hm],
    by rw [hsl1, hsl], by omega, ?_, ?_, ?_, ?_, ?_⟩
  · intro k hk
    rcases hget k with hsame | ⟨hk1, hk2, hkw⟩
    · rw [hsame]
      by_cases hki : k = st.i
      · subst hki
        rw [hn st.i (le_refl _) hlt]
        exact ⟨fun h => absurd h (by decide), fun h => absurd h hnot⟩
      · exact hb k (by omega)
    · rw [hkw]
      obtain ⟨x, hx, hxl⟩ := hd k hk1 hk2
      exact ⟨fun h => absurd h (by decide), fun h => absurd h (not_NumberAt_of_letter text k x hx hxl)⟩
  · intro k hk1 hk2
    rcases hget k with hsame | ⟨_, hk3, _⟩
    · rw [hsame]
      exact hn k (by omega) hk2
    · omega
  · intro k hk1 hk2
    cases hx : (isalpha c || c == '_') with
    | true =>
      by_cases hki : k = st.i
      · subst hki
        exact ⟨c, hc, hx⟩
      · exact hd k (by omega) (by omega)
    | false =>
      have := hnl hx
      simp [this] at hk1
      omega
  · intro _ p hp hpl
    have e : st1.i - 1 = st.i := by omega
    rw [e, hc] at hp
    cases hp
    exact hnl hpl
  · intro _ p x hp _ _ _
    have e : st1.i - 1 = st.i := by omega
    rw [e]
    exact hnot

/-- What the test for the start of a number says when it holds. -/
theorem startsNumber_true (text : List Char) (i : Nat) (c : Char)
    (h : startsNumber text i c = some true) :
    isdigit c = true ∧
    (i = 0 ∨ ∃ p, text[i - 1]? = some p ∧ (isalpha p || isdigit p || p == '_') = false) := by
  unfold startsNumber at h
  by_cases hd : isdigit c = true
  · refine ⟨hd, ?_⟩
    simp only [hd, if_true] at h
    by_cases hi0 : i = 0
    · exact Or.inl hi0
    · simp only [hi0, if_false] at h
      cases hp : text[i - 1]? with
      | none => simp [hp] at h
      | some p =>
        simp only [hp, Option.map_some', Option.some.injEq, Bool.not_eq_true'] at h
        exact Or.inr ⟨p, rfl, h⟩
  · simp [hd] at h

/-- What the test for the end of a number says when it holds. -/
theorem endsNumber_true (text : List Char) (j : Nat) (h : endsNumber text j = some true) :
    j = text.length ∨ ∃ n, text[j]? = some n ∧ (isalpha n || n == '_') = false := by
  unfold endsNumber at h
  by_cases hj : j = text.length
  · exact Or.inl hj
  · simp only [hj, if_false] at h
    cases hn : text[j]? with
    | none => simp [hn] at h
    | some n =>
      simp only [hn, Option.map_some', Option.some.injEq, Bool.not_eq_true'] at h
      exact Or.inr ⟨n, rfl, h⟩

/-- The number branch keeps the loop state in line with the description: the run of digits
that starts at `i` is a number, its cells become Number and `i` moves to its end. -/
theorem NumberInv_number (text : List Char) (st : Scan) (c : Char) (hinv : NumberInv text st)
    (hlt : st.i < text.length) (hc : text[st.i]? = some c)
    (hs : startsNumber text st.i c = some true)
    (he : endsNumber text (scanDigits text (text.length - st.i) st.i) = some true) :
    ∃ b, fillSyntax SYNTAX_NUMBER (scanDigits text (text.length - st.i) st.i - st.i) st.i
        st.syntaxArr = some b ∧
      st.i < scanDigits text (text.length - st.i) st.i ∧
      NumberInv text
        { st with syntaxArr := b, i := scanDigits text (text.length - st.i) st.i } := by
  obtain ⟨hi, hlen, hstr, hm, hsl, hw, hb, hn, hd, hf, hprev⟩ := hinv
  obtain ⟨hdig, hpre⟩ := startsNumber_true text st.i c hs
  have hpost := endsNumber_true text _ he
  have hbd := scanDigits_bounds text (text.length - st.i) st.i (by omega)
  have hadv := scanDigits_advances text (text.length - st.i) st.i c hc hdig hlt (by omega)
  obtain ⟨hrun, hstop⟩ := scanDigits_run text (text.length - st.i) st.i (by omega) (by omega)
  generalize scanDigits text (text.length - st.i) st.i = j at *
  obtain ⟨b, hfill, hlb, hget⟩ := fillSyntax_spec SYNTAX_NUMBER (j - st.i) st.i st.syntaxArr
    (by omega)
  have hw0 : st.current_word = [] := by
    by_cases hz : st.i = 0
    · exact List.length_eq_zero.mp (by omega)
    rcases hpre with h0 | ⟨p, hp, hid⟩
    · exact absurd h0 hz
    · have hl : (isalpha p || p == '_') = false := by
        simp only [Bool.or_eq_false_iff] at hid ⊢
        exact ⟨hid.1.1, hid.2⟩
      exact hf (by omega) p hp hl
  have hend : j = text.length ∨
      ∃ n, text[j]? = some n ∧ isdigit n = false ∧ (isalpha n || n == '_') = false := by
    rcases hpost with h | ⟨n, hn1, hn2⟩
    · exact Or.inl h
    · rcases hstop with h | ⟨n', hn1', hn2'⟩
      · exact Or.inl h
      · rw [hn1] at hn1'
        cases hn1'
        exact Or.inr ⟨n, hn1, hn2', hn2⟩
  refine ⟨b, hfill, hadv, hbd.2, hlb.trans hlen, hstr, hm,
    hsl, by simp [hw0], ?_, ?_, ?_, ?_, ?_⟩
  · intro k hk
    simp only [] at hk ⊢
    rw [hget k]
    by_cases hin : st.i ≤ k ∧ k < st.i + (j - st.i)
    · simp only [hin, and_self, if_true, true_iff]
      exact ⟨st.i, j, hin.1, by omega, hbd.2, hrun, hpre, hend⟩
    · simp only [hin, if_false]
      exact hb k (by omega)
  · intro k hk1 hk2
    simp only [] at hk1 ⊢
    rw [hget k]
    have hin : ¬ (st.i ≤ k ∧ k < st.i + (j - st.i)) := by omega
    simp only [hin, if_false]
    exact hn k (by omega) hk2
  · intro k hk1 hk2
    simp only [hw0, List.length_nil] at hk1 hk2
    omega
  · intro _ _ _ _
    exact hw0
  · intro _ p x hp hx hpd hxd
    simp only [] at hx
    rcases hstop with h | ⟨n, hn1, hn2⟩
    · rw [List.getElem?_eq_none (by omega)] at hx
      cases hx
    · rw [hn1] at hx
      cases hx
      rw [hxd] at hn2
      cases hn2

/-- On a line without quotes and slashes one iteration of the loop returns without `break`,
moves `i` forward and keeps the loop state in line with the description. -/
theorem NumberInv_step (text : List Char)
    (hclean : ∀ x ∈ text, x ≠ '"' ∧ x ≠ '\'' ∧ x ≠ '/') (st : Scan)
    (hinv : NumberInv text st) (hlt : st.i < text.length) :
    ∃ st1, scanStep text st = some (false, st1) ∧ st.i < st1.i ∧ NumberInv text st1 := by
  have hc : text[st.i]? = some text[st.i] := List.getElem?_eq_getElem hlt
  obtain ⟨hq1, hq2, hq3⟩ := hclean text[st.i] (List.getElem_mem hlt)
  have hinv0 := hinv
  obtain ⟨hi, hlen, hstr, hm, hsl, hw, hb, hn, hd, hf, hprev⟩ := hinv
  have hcode : scanStep text st = codeStep text text[st.i] st := by
    unfold scanStep
    simp [hc, hsl, hm, hstr, hq1, hq2]
  have hp1 : pairAt text st.i text[st.i] '/' '*' = some false := by simp [pairAt, hq3]
  have hp2 : pairAt text st.i text[st.i] '/' '/' = some false := by simp [pairAt, hq3]
  obtain ⟨num, hnum, _⟩ := startsNumber_ok text st.i text[st.i] hlt
  cases num with
  | false =>
    have hnot : ¬ NumberAt text st.i :=
      not_NumberAt_of_start text st.i _ hc hnum (fun h0 p hp hpd hcd => hprev h0 p _ hp hc hpd hcd)
    obtain ⟨st1, hw1, hi1, hinv1⟩ := NumberInv_word text st _ hinv0 hlt hc hnot
    refine ⟨st1, ?_, by omega, hinv1⟩
    rw [hcode]
    unfold codeStep
    simp [hp1, hp2, hnum, hw1]
  | true =>
    have hbd := scanDigits_bounds text (text.length - st.i) st.i (by omega)
    obtain ⟨fin, hfin⟩ := endsNumber_ok text _ hbd.2
    cases fin with
    | false =>
      obtain ⟨hrun, _⟩ := scanDigits_run text (text.length - st.i) st.i (by omega) (by omega)
      have hnot : ¬ NumberAt text st.i := not_NumberAt_of_end text st.i _ hbd.1 hrun hfin
      obtain ⟨st1, hw1, hi1, hinv1⟩ := NumberInv_word text st _ hinv0 hlt hc hnot
      refine ⟨st1, ?_, by omega, hinv1⟩
      rw [hcode]
      unfold codeStep
      simp [hp1, hp2, hnum, hfin, hw1]
    | true =>
      obtain ⟨b, hfill, hadv, hinv1⟩ := NumberInv_number text st _ hinv0 hlt hc hnum hfin
      refine ⟨_, ?_, hadv, hinv1⟩
      rw [hcode]
      unfold codeStep
      simp [hp1, hp2, hnum, hfin, hfill]

/-- On a line without quotes and slashes the loop returns at the end of the line with its state
in line with the description. -/
theorem NumberInv_loop (text : List Char)
    (hclean : ∀ x ∈ text, x ≠ '"' ∧ x ≠ '\'' ∧ x ≠ '/') :
    ∀ (fuel : Nat) (st : Scan), text.length ≤ fuel + st.i → NumberInv text st →
      ∃ st1, scanLoop text fuel st = some st1 ∧ NumberInv text st1 ∧
        st1.i = text.length := by
  intro fuel
  induction fuel with
  | zero =>
    intro st hf hinv
    have hi := hinv.1
    have : ¬ st.i < text.length := by omega
    exact ⟨st, by simp [scanLoop, this], hinv, by omega⟩
  | succ fuel ih =>
    intro st hf hinv
    have hi := hinv.1
    by_cases hlt : st.i < text.length
    · obtain ⟨st1, hs, hadv, hinv1⟩ := NumberInv_step text hclean st hinv hlt
      obtain ⟨st2, h2, hinv2, hi2⟩ := ih st1 (by omega) hinv1
      refine ⟨st2, ?_, hinv2, hi2⟩
      simp only [scanLoop, hlt, if_true, hs, Option.some_bind]
      simpa using h2
    · exact ⟨st, by simp [scanLoop, hlt], hinv, by omega⟩

/-- After `insertChar` the text and the syntax block both have one element more than the text
had. -/
theorem insertChar_lengths (line : Line) (pos : Int) (ch : Int) :
    (insertChar line pos ch).1.text.length = line.text.length + 1 ∧
    (insertChar line pos ch).1.syntaxArr.length = line.text.length + 1 := by
  have hr : (reallocSyntax line.syntaxArr (line.text.length + 1)).length
      = line.text.length + 1 := by
    simp [reallocSyntax]; omega
  have key : ∀ p : Nat, p ≤ line.text.length →
      (line.text.take p ++ [toChar ch] ++ line.text.drop p).length = line.text.length + 1 ∧
      (((reallocSyntax line.syntaxArr (line.text.length + 1)).take (p + 1) ++
        ((reallocSyntax line.syntaxArr (line.text.length + 1)).drop p).take
          (line.text.length + 1 - p - 1)).set p SYNTAX_NORMAL).length
        = line.text.length + 1 := by
    intro p hp
    constructor
    · simp; omega
    · simp [hr]; omega
  by_cases hc : (pos < 0 ∨ pos > (line.text.length : Int))
  · have h := key line.text.length (le_refl _)
    simp only [insertChar, hc, if_true, Int.toNat_ofNat]
    exact ⟨h.1, by rw [h.1]; exact h.2⟩
  · have h := key pos.toNat (by omega)
    simp only [insertChar, hc, if_false]
    exact ⟨h.1, by rw [h.1]; exact h.2⟩

/-- One call keeps a cell of the syntax block under every character of the text. -/
theorem applyCall_covers (st : Line × Bool) (call : LineCall)
    (h : st.1.text.length ≤ st.1.syntaxArr.length) :
    (applyCall st call).1.text.length ≤ (applyCall st call).1.syntaxArr.length := by
  cases call with
  | insert pos ch =>
    obtain ⟨h1, h2⟩ := insertChar_lengths st.1 pos ch
    simp only [applyCall]
    omega
  | delete pos =>
    simp only [applyCall, deleteChar]
    split_ifs with hc
    · exact h
    · simp only [List.length_eraseIdx]
      split_ifs <;> omega

/-- A sequence of calls keeps a cell of the syntax block under every character of the text. -/
theorem runCalls_covers (calls : List LineCall) :
    ∀ st : Line × Bool, st.1.text.length ≤ st.1.syntaxArr.length →
      (runCalls st calls).1.text.length ≤ (runCalls st calls).1.syntaxArr.length := by
  induction calls with
  | nil => intro st h; exact h
  | cons call calls ih =>
    intro st h
    exact ih (applyCall st call) (applyCall_covers st call h)

/-! ## Properties -/

/-- C1. For every line whose classification array has the length of its text, every sequence
of `insertChar` and `deleteChar` calls with arbitrary positions and characters, and every
number `n` of calls carried out so far, the classification array of the line again has the
length of its text: `insertChar` grows the syntax block with the text, `deleteChar` shortens
the text and leaves the block, so no character is ever without a cell. -/
theorem classification_length_after_calls (line : Line) (gDirty : Bool)
    (h : (classification line).length = line.text.length)
    (calls : List LineCall) (n : Nat) :
    (classification (runCalls (line, gDirty) (calls.take n)).1).length =
      (runCalls (line, gDirty) (calls.take n)).1.text.length := by
  have h0 : line.text.length ≤ line.syntaxArr.length := by
    simp only [classification, List.length_take] at h
    omega
  have hc := runCalls_covers (calls.take n) (line, gDirty) h0
  simp only [classification, List.length_take]
  omega

/-- C1, on the line "ab" after deleting position 0, inserting 'x' at position 5 and deleting
position 1. -/
theorem classification_length_after_calls_witness :
    (classification (newLine ['a', 'b'])).length = (newLine ['a', 'b']).text.length ∧
    (classification (runCalls (newLine ['a', 'b'], false)
      ([LineCall.delete 0, LineCall.insert 5 (code 'x'), LineCall.delete 1].take 3)).1).length =
      (runCalls (newLine ['a', 'b'], false)
        ([LineCall.delete 0, LineCall.insert 5 (code 'x'), LineCall.delete 1].take 3)).1.text.length :=
  ⟨by decide, classification_length_after_calls (newLine ['a', 'b']) false (by decide)
    [LineCall.delete 0, LineCall.insert 5 (code 'x'), LineCall.delete 1] 3⟩

/-- C2. From a session whose cursor is valid (row inside the buffer, column between 0 and the
length of that row, hence a buffer of at least one line), every key code makes both
`processNormalMode` and `processInsertMode` return a session whose cursor is valid again. -/
theorem cursor_in_bounds_after_key (ch : Int) (s : Session) (h : cursorInBounds s) :
    (∃ s1, processNormalMode ch s = some s1 ∧ cursorInBounds s1) ∧
    (∃ s1, processInsertMode ch s = some s1 ∧ cursorInBounds s1) := by
  constructor
  · obtain ⟨s1, hk, hb⟩ := normalKey_ok ch s h
    have hpos : 0 < s1.gBuffer.length := by
      obtain ⟨h0, h1, _⟩ := h
      rw [hb]; omega
    obtain ⟨s2, he, hc, _⟩ := ensureCursorInBounds_ok s1 hpos
    exact ⟨s2, by simp [processNormalMode, hk, he], hc⟩
  · obtain ⟨s1, hk, hpos⟩ := insertKey_ok ch s h
    obtain ⟨s2, he, hc, _⟩ := ensureCursorInBounds_ok s1 hpos
    exact ⟨s2, by simp [processInsertMode, hk, he], hc⟩

/-- C2, at the fresh Insert-mode session with the key `KEY_DOWN`. -/
theorem cursor_in_bounds_after_key_witness :
    cursorInBounds freshInsert ∧
    (∃ s1, processNormalMode KEY_DOWN freshInsert = some s1 ∧ cursorInBounds s1) ∧
    (∃ s1, processInsertMode KEY_DOWN freshInsert = some s1 ∧ cursorInBounds s1) :=
  have hc : cursorInBounds freshInsert :=
    ⟨by decide, by decide, newLine [], by decide, by decide, by decide⟩
  ⟨hc, cursor_in_bounds_after_key KEY_DOWN freshInsert hc⟩

/-- C3. The classification produced by `update_line_syntax` depends on the text only: on two
lines with the same text and syntax blocks of that length, whatever the blocks held, the
function returns, and returns the same line; tokenizing that result again returns it unchanged. -/
theorem syntax_depends_on_text_only (text : List Char) (s1 s2 : List SyntaxType)
    (h1 : s1.length = text.length) (h2 : s2.length = text.length) :
    ∃ r, ( update_line_syntax { text := text, syntaxArr := s1 }) = some r ∧
      ( update_line_syntax { text := text, syntaxArr := s2 }) = some r ∧
      ( update_line_syntax r) = some r := by
  have key : ∀ s : List SyntaxType, s.length = text.length →
      ( update_line_syntax { text := text, syntaxArr := s }) =
        ( update_line_syntax { text := text, syntaxArr := s1 }) := by
    intro s hs
    unfold update_line_syntax
    rw [clearSyntax_eq text s s1 hs h1]
  obtain ⟨r, hr, ht, hl⟩ := update_line_syntax_ok { text := text, syntaxArr := s1 }
    (by simp; omega)
  refine ⟨r, hr, by rw [key s2 h2]; exact hr, ?_⟩
  have hreq : r = { text := text, syntaxArr := r.syntaxArr } := by
    cases r; simp at ht; simp [ht]
  rw [hreq, key r.syntaxArr (by simp at hl; omega)]
  rw [← hreq]; exact hr

/-- C3, at the text "a" with the previous blocks [String] and [Number]. -/
theorem syntax_depends_on_text_only_witness :
    [SYNTAX_STRING].length = ['a'].length ∧ [SYNTAX_NUMBER].length = ['a'].length ∧
    ∃ r, ( update_line_syntax { text := ['a'], syntaxArr := [SYNTAX_STRING] }) = some r ∧
      ( update_line_syntax { text := ['a'], syntaxArr := [SYNTAX_NUMBER] }) = some r ∧
      ( update_line_syntax r) = some r :=
  ⟨rfl, rfl, syntax_depends_on_text_only ['a'] [SYNTAX_STRING] [SYNTAX_NUMBER] rfl rfl⟩

/-- C4. The line "int//" has no quote and no block comment and its first "//" is at index 3,
yet the tokenizer leaves indices 3 and 4 classified Keyword: the word "int" is still pending
when the loop breaks, and the flush after the loop marks the last three cells of the line.
On the line "// comment" no word is pending, and every cell holds 50529027, the value the
byte-wise `memset` of muks.c:242 leaves in an `int`, which is not `SYNTAX_COMMENT`. -/
theorem line_comment_after_keyword :
    ( update_line_syntax (newLine "int//".toList)) =
      some { text := "int//".toList,
             syntaxArr := [SYNTAX_NORMAL, SYNTAX_NORMAL, SYNTAX_KEYWORD, SYNTAX_KEYWORD,
                           SYNTAX_KEYWORD] } ∧
    ( update_line_syntax (newLine "// comment".toList)) =
      some { text := "// comment".toList, syntaxArr := List.replicate 10 50529027 } ∧
    (50529027 : SyntaxType) ≠ SYNTAX_COMMENT := by
  decide

/-- C5. In the four-character line made of d, double quote, double quote, o the tokenizer
classifies index 2, which holds a double quote, as Keyword: the letters on both sides of the
string literal are collected into the one word "do", and the last two cells of the line are
marked without regard to what they hold. -/
theorem keyword_marks_cover_quote :
    ( update_line_syntax (newLine ['d', '"', '"', 'o'])) =
      some { text := ['d', '"', '"', 'o'],
             syntaxArr := [SYNTAX_NORMAL, SYNTAX_STRING, SYNTAX_KEYWORD, SYNTAX_KEYWORD] } := by
  decide

/-- C6. Tokenizing "int x = 1;" classifies indices 0-2 as Keyword, 3-7 as Normal, 8 as Number
and 9 as Normal. -/
theorem tokenize_int_x_eq_1 :
    ( update_line_syntax (newLine "int x = 1;".toList)) =
      some { text := "int x = 1;".toList,
             syntaxArr := [SYNTAX_KEYWORD, SYNTAX_KEYWORD, SYNTAX_KEYWORD, SYNTAX_NORMAL,
                           SYNTAX_NORMAL, SYNTAX_NORMAL, SYNTAX_NORMAL, SYNTAX_NORMAL,
                           SYNTAX_NUMBER, SYNTAX_NORMAL] } := by
  decide

/-- C7. In Insert mode on the only line of the buffer, `KEY_DOWN` appends an empty line and
leaves the cursor on row 0, which is no longer the last row: the branch that appends does not
advance `gCursorY`. -/
theorem key_down_on_last_line_stays :
    freshInsert.gCursorY = (freshInsert.gBuffer.length : Int) - 1 ∧
    (processInsertMode KEY_DOWN freshInsert).map (fun s => (s.gBuffer, s.gCursorY, s.gCursorX)) =
      some ([newLine [], newLine []], 0, 0) := by
  decide

/-- C8. With the command string ":q" and the dirty flag set, Enter in Command mode does not
end the process and writes nothing; buffer, cursor and dirty flag are unchanged, the mode is
Normal and the status message is "You have unsaved changes. Use :w to save.". -/
theorem quit_refused_when_dirty (fopenOk : Bool) (s : Session)
    (hcmd : cstr s.gCmdBuffer = ":q".toList) (hdirty : s.gDirty = true) :
    (processCommandMode fopenOk (code '\n') s).exited = none ∧
    (processCommandMode fopenOk (code '\n') s).written = none ∧
    (processCommandMode fopenOk (code '\n') s).session.gBuffer = s.gBuffer ∧
    (processCommandMode fopenOk (code '\n') s).session.gCursorX = s.gCursorX ∧
    (processCommandMode fopenOk (code '\n') s).session.gCursorY = s.gCursorY ∧
    (processCommandMode fopenOk (code '\n') s).session.gDirty = s.gDirty ∧
    (processCommandMode fopenOk (code '\n') s).session.gMode = MODE_NORMAL ∧
    (processCommandMode fopenOk (code '\n') s).session.gStatusMsg =
      "You have unsaved changes. Use :w to save." := by
  have h1 : cmdIs s ":wq" = false := by simp [cmdIs, hcmd]
  have h2 : cmdIs s ":w" = false := by simp [cmdIs, hcmd]
  have h3 : cmdIs s ":q!" = false := by simp [cmdIs, hcmd]
  have h4 : cmdIs s ":q" = true := by simp [cmdIs, hcmd]
  simp [processCommandMode, h1, h2, h3, h4, hdirty, editorSetStatusMessage]
  decide

/-- C8, at a concrete session: Command mode, command string ":q", dirty flag set. -/
theorem quit_refused_when_dirty_witness :
    (processCommandMode true (code '\n')
      { freshInsert with gMode := MODE_COMMAND, gCmdBuffer := [':', 'q'], gDirty := true }).exited
        = none ∧
    (processCommandMode true (code '\n')
      { freshInsert with gMode := MODE_COMMAND, gCmdBuffer := [':', 'q'], gDirty := true }).session.gMode
        = MODE_NORMAL :=
  have h := quit_refused_when_dirty true
    { freshInsert with gMode := MODE_COMMAND, gCmdBuffer := [':', 'q'], gDirty := true }
    (by decide) rfl
  ⟨h.1, h.2.2.2.2.2.2.1⟩

/-- C9. In Insert mode on the last line of a clean buffer, `KEY_DOWN` changes the number of
lines from one to two and leaves `gDirty` false: `appendLine` does not set the flag. -/
theorem key_down_appends_without_dirty :
    freshInsert.gDirty = false ∧
    (processInsertMode KEY_DOWN freshInsert).map (fun s => (s.gBuffer.length, s.gDirty)) =
      some (2, false) := by
  decide

/-- C10. When the named file is empty or cannot be opened, the initialisation of `main` leaves
a buffer of zero lines, and the first Normal-mode key then reads `lines[-1]`. -/
theorem init_with_empty_or_missing_file :
    (initSession (some "f") (some [])).map (fun s => s.gBuffer.length) = some 0 ∧
    (initSession (some "f") none).map (fun s => s.gBuffer.length) = some 0 ∧
    (initSession (some "f") none).bind (processNormalMode (code 'j')) = none := by
  decide

/-- C11. For all previous offsets and every cursor position, on a grid with at least one text
row (`maxY - 2 >= 1`) and one column, `updateOffsets` leaves the cursor inside the window:
`gOffsetY <= gCursorY < gOffsetY + (maxY - 2)` and `gOffsetX <= gCursorX < gOffsetX + maxX`;
the cursor itself is not moved. -/
theorem updateOffsets_cursor_visible (maxY maxX : Int) (s : Session)
    (hY : maxY - 2 ≥ 1) (hX : maxX ≥ 1) :
    (updateOffsets maxY maxX s).gCursorY = s.gCursorY ∧
    (updateOffsets maxY maxX s).gCursorX = s.gCursorX ∧
    (updateOffsets maxY maxX s).gOffsetY ≤ s.gCursorY ∧
    s.gCursorY < (updateOffsets maxY maxX s).gOffsetY + (maxY - 2) ∧
    (updateOffsets maxY maxX s).gOffsetX ≤ s.gCursorX ∧
    s.gCursorX < (updateOffsets maxY maxX s).gOffsetX + maxX := by
  unfold updateOffsets
  refine ⟨rfl, rfl, ?_, ?_, ?_, ?_⟩ <;> simp only [] <;> split_ifs <;> omega

/-- C11, on a 24 x 80 grid with the cursor at row 100, column 200 and offsets 0. -/
theorem updateOffsets_cursor_visible_witness :
    (24 : Int) - 2 ≥ 1 ∧ (80 : Int) ≥ 1 ∧
    (updateOffsets 24 80 { freshInsert with gCursorY := 100, gCursorX := 200 }).gOffsetY ≤ 100 ∧
    (100 : Int) <
      (updateOffsets 24 80 { freshInsert with gCursorY := 100, gCursorX := 200 }).gOffsetY
        + (24 - 2) :=
  have h := updateOffsets_cursor_visible 24 80
    { freshInsert with gCursorY := 100, gCursorX := 200 } (by decide) (by decide)
  ⟨by decide, by decide, h.2.2.1, h.2.2.2.1⟩

/-- C12. With a negative position `insertChar` does not insert at index 0: on the line "ab"
the call `insertChar(line, -1, 'x')` gives "abx", not "xab". -/
theorem insertChar_negative_pos_not_front :
    (insertChar { text := ['a', 'b'], syntaxArr := [SYNTAX_NORMAL, SYNTAX_NORMAL] } (-1)
      (code 'x')).1.text = ['a', 'b', 'x'] ∧
    (insertChar { text := ['a', 'b'], syntaxArr := [SYNTAX_NORMAL, SYNTAX_NORMAL] } (-1)
      (code 'x')).1.text ≠
      List.take 0 ['a', 'b'] ++ [toChar (code 'x')] ++ List.drop 0 ['a', 'b'] := by
  decide

/-- C12 as amended. For every line, position and character, `insertChar` inserts `(char)ch` at
index `pos` when `0 <= pos <= length` and appends it at index `length` for every other `pos`
(negative ones included); the length grows by exactly one, the syntax cell at the insertion
index is `SYNTAX_NORMAL`, and `gDirty` becomes true. -/
theorem insertChar_spec (line : Line) (pos : Int) (ch : Int) :
    (0 ≤ pos → pos ≤ (line.text.length : Int) →
      (insertChar line pos ch).1.text =
        line.text.take pos.toNat ++ [toChar ch] ++ line.text.drop pos.toNat ∧
      (insertChar line pos ch).1.syntaxArr[pos.toNat]? = some SYNTAX_NORMAL) ∧
    ((pos < 0 ∨ (line.text.length : Int) < pos) →
      (insertChar line pos ch).1.text = line.text ++ [toChar ch] ∧
      (insertChar line pos ch).1.syntaxArr[line.text.length]? = some SYNTAX_NORMAL) ∧
    (insertChar line pos ch).1.text.length = line.text.length + 1 ∧
    (insertChar line pos ch).2 = true := by
  have hblock : ∀ p : Nat, p ≤ line.text.length →
      ((((reallocSyntax line.syntaxArr (line.text.length + 1)).take (p + 1) ++
        ((reallocSyntax line.syntaxArr (line.text.length + 1)).drop p).take
          (line.text.length + 1 - p - 1)).set p SYNTAX_NORMAL)[p]?) = some SYNTAX_NORMAL := by
    intro p hp
    have hr : (reallocSyntax line.syntaxArr (line.text.length + 1)).length
        = line.text.length + 1 := by
      simp [reallocSyntax]; omega
    rw [List.getElem?_set_self]
    simp [hr]; omega
  have hlen : ∀ p : Nat, p ≤ line.text.length →
      (line.text.take p ++ [toChar ch] ++ line.text.drop p).length = line.text.length + 1 := by
    intro p hp; simp; omega
  refine ⟨?_, ?_, ?_, rfl⟩
  · intro h0 h1
    have hc : ¬ (pos < 0 ∨ pos > (line.text.length : Int)) := by omega
    have hp : pos.toNat ≤ line.text.length := by omega
    constructor
    · simp [insertChar, hc]
    · simp only [insertChar, hc, if_false]
      rw [hlen _ hp]
      exact hblock _ hp
  · intro h
    have hc : (pos < 0 ∨ pos > (line.text.length : Int)) := by omega
    constructor
    · simp [insertChar, hc]
    · simp only [insertChar, hc, if_true, Int.toNat_ofNat]
      rw [hlen _ (le_refl _)]
      exact hblock _ (le_refl _)
  · by_cases hc : (pos < 0 ∨ pos > (line.text.length : Int))
    · simp only [insertChar, hc, if_true, Int.toNat_ofNat]
      exact hlen _ (le_refl _)
    · simp only [insertChar, hc, if_false]
      exact hlen _ (by omega)

/-- C12 as amended, on the line "ab" at position 1 and at position -1. -/
theorem insertChar_spec_witness :
    (insertChar { text := ['a', 'b'], syntaxArr := [SYNTAX_KEYWORD, SYNTAX_KEYWORD] } 1
      (code 'x')).1.text = List.take 1 ['a', 'b'] ++ [toChar (code 'x')] ++ List.drop 1 ['a', 'b'] ∧
    (insertChar { text := ['a', 'b'], syntaxArr := [SYNTAX_KEYWORD, SYNTAX_KEYWORD] } (-1)
      (code 'x')).1.text = ['a', 'b'] ++ [toChar (code 'x')] :=
  ⟨((insertChar_spec { text := ['a', 'b'], syntaxArr := [SYNTAX_KEYWORD, SYNTAX_KEYWORD] } 1
      (code 'x')).1 (by decide) (by decide)).1,
   ((insertChar_spec { text := ['a', 'b'], syntaxArr := [SYNTAX_KEYWORD, SYNTAX_KEYWORD] } (-1)
      (code 'x')).2.1 (by decide)).1⟩

/-- C13. With the command string ":wq" and no filename, Enter does not end the process, keeps
buffer and dirty flag and sets the mode to Normal, but the status message is left as it was
(here empty) instead of becoming "No filename to save.": the branch of ":wq" has no `else` for a
missing filename, unlike the branch of ":w". -/
theorem wq_without_filename_sets_no_message :
    (processCommandMode true (code '\n')
      { freshInsert with gMode := MODE_COMMAND, gCmdBuffer := [':', 'w', 'q'] }) =
      { session := { freshInsert with gMode := MODE_NORMAL, gCmdBuffer := [':', 'w', 'q'] },
        exited := none, written := none } ∧
    (processCommandMode true (code '\n')
      { freshInsert with gMode := MODE_COMMAND, gCmdBuffer := [':', 'w'] }).session.gStatusMsg =
      "No filename to save." := by
  decide

/-- C15. The record "a\r\n" is loaded as the two-character line "a\r", while the record "a\n" is
loaded as "a": `loadFile` cuts one trailing character, so the carriage return stays. -/
theorem loadFile_keeps_carriage_return :
    (loadFile [] (some ['a', '\r', '\n'])).map (fun r => r.2.map Line.text) =
      some [['a', '\r']] ∧
    (loadFile [] (some ['a', '\n'])).map (fun r => r.2.map Line.text) = some [['a']] := by
  decide

/-- C16. Whatever the command string, Enter in Command mode either ends the process or leaves
the mode Normal; and when the command string is none of ":w", ":wq", ":q", ":q!" the process
goes on, nothing is written, buffer, cursor and dirty flag are unchanged and the status message
is "Unknown command!". -/
theorem enter_returns_to_normal (fopenOk : Bool) (s : Session) :
    ((processCommandMode fopenOk (code '\n') s).exited ≠ none ∨
      (processCommandMode fopenOk (code '\n') s).session.gMode = MODE_NORMAL) ∧
    (cstr s.gCmdBuffer ≠ ":w".toList → cstr s.gCmdBuffer ≠ ":wq".toList →
      cstr s.gCmdBuffer ≠ ":q".toList → cstr s.gCmdBuffer ≠ ":q!".toList →
      (processCommandMode fopenOk (code '\n') s).exited = none ∧
      (processCommandMode fopenOk (code '\n') s).written = none ∧
      (processCommandMode fopenOk (code '\n') s).session.gBuffer = s.gBuffer ∧
      (processCommandMode fopenOk (code '\n') s).session.gCursorX = s.gCursorX ∧
      (processCommandMode fopenOk (code '\n') s).session.gCursorY = s.gCursorY ∧
      (processCommandMode fopenOk (code '\n') s).session.gDirty = s.gDirty ∧
      (processCommandMode fopenOk (code '\n') s).session.gStatusMsg = "Unknown command!") := by
  constructor
  · unfold processCommandMode
    simp only [if_true]
    split_ifs <;> (try split) <;> (try split) <;> simp [editorSetStatusMessage]
  · intro h1 h2 h3 h4
    have e1 : cmdIs s ":wq" = false := by simp [cmdIs]; exact h2
    have e2 : cmdIs s ":w" = false := by simp [cmdIs]; exact h1
    have e3 : cmdIs s ":q!" = false := by simp [cmdIs]; exact h4
    have e4 : cmdIs s ":q" = false := by simp [cmdIs]; exact h3
    simp [processCommandMode, e1, e2, e3, e4, editorSetStatusMessage]
    decide

/-- C16, at the command string ":x". -/
theorem enter_returns_to_normal_witness :
    (processCommandMode true (code '\n')
      { freshInsert with gMode := MODE_COMMAND, gCmdBuffer := [':', 'x'] }).exited = none ∧
    (processCommandMode true (code '\n')
      { freshInsert with gMode := MODE_COMMAND, gCmdBuffer := [':', 'x'] }).session.gStatusMsg =
      "Unknown command!" :=
  have h := (enter_returns_to_normal true
    { freshInsert with gMode := MODE_COMMAND, gCmdBuffer := [':', 'x'] }).2
    (by decide) (by decide) (by decide) (by decide)
  ⟨h.1, h.2.2.2.2.2.2⟩

/-- C19. With a valid cursor, `KEY_BACKSPACE` in `processInsertMode` at a column `c > 0` replaces
the text of the current line by the same text without the character at index `c - 1`, leaves
every other line as it is and moves the cursor to column `c - 1` of the same row; at column 0
the session comes back unchanged (buffer, cursor and dirty flag included). -/
theorem backspace_deletes_left (s : Session) (h : cursorInBounds s) :
    (0 < s.gCursorX → ∃ line, lineAt s.gBuffer s.gCursorY = some line ∧
      processInsertMode KEY_BACKSPACE s =
        some { s with
          gBuffer := s.gBuffer.set s.gCursorY.toNat
            { line with text := line.text.eraseIdx (s.gCursorX - 1).toNat },
          gDirty := true,
          gCursorX := s.gCursorX - 1 }) ∧
    (s.gCursorX = 0 → processInsertMode KEY_BACKSPACE s = some s) := by
  have hk : (KEY_BACKSPACE = 27) = False := by decide
  constructor
  · intro hpos
    obtain ⟨h0, h1, line, hl, hx0, hx1⟩ := h
    refine ⟨line, hl, ?_⟩
    have hd : ¬ (s.gCursorX - 1 < 0 ∨ s.gCursorX - 1 ≥ (line.text.length : Int)) := by omega
    have hgt : s.gCursorX > 0 := hpos
    simp only [processInsertMode, insertKey, hk, if_false, if_true, hgt, hl, Option.map_some',
      Option.some_bind, deleteChar, hd]
    apply ensureCursorInBounds_id
    have hlen : (line.text.eraseIdx (s.gCursorX - 1).toNat).length = line.text.length - 1 := by
      have hlt : (s.gCursorX - 1).toNat < line.text.length := by omega
      rw [List.length_eraseIdx, if_pos hlt]
    refine ⟨h0, by simpa using h1, _, lineAt_set _ _ _ h0 h1, ?_, ?_⟩
    · show 0 ≤ s.gCursorX - 1
      omega
    · show s.gCursorX - 1 ≤ ((line.text.eraseIdx (s.gCursorX - 1).toNat).length : Int)
      rw [hlen]
      omega
  · intro hz
    have hgt : ¬ s.gCursorX > 0 := by omega
    simp only [processInsertMode, insertKey, hk, if_false, if_true, hgt, Option.some_bind]
    exact ensureCursorInBounds_id s h

/-- C19, on the line "ab" with the cursor at column 1. -/
theorem backspace_deletes_left_witness :
    cursorInBounds { freshInsert with gBuffer := [newLine ['a', 'b']], gCursorX := 1 } ∧
    ∃ line, lineAt [newLine ['a', 'b']] 0 = some line ∧
      processInsertMode KEY_BACKSPACE
        { freshInsert with gBuffer := [newLine ['a', 'b']], gCursorX := 1 } =
        some { freshInsert with
          gBuffer := [newLine ['a', 'b']].set 0 { line with text := line.text.eraseIdx 0 },
          gDirty := true,
          gCursorX := 0 } :=
  have hc : cursorInBounds { freshInsert with gBuffer := [newLine ['a', 'b']], gCursorX := 1 } :=
    ⟨by decide, by decide, newLine ['a', 'b'], by decide, by decide, by decide⟩
  ⟨hc, (backspace_deletes_left
    { freshInsert with gBuffer := [newLine ['a', 'b']], gCursorX := 1 } hc).1 (by decide)⟩

/-- C20. On every line whose syntax block has the length of its text `update_line_syntax`
returns a result: the loop ends within `length` iterations and no read of the text and no write
into the block falls outside `[0, length)`, so the out-of-range outcome `none` does not occur;
the text and the size of the block are unchanged. -/
theorem update_line_syntax_in_range (line : Line)
    (h : line.syntaxArr.length = line.text.length) :
    ∃ r, ( update_line_syntax line) = some r ∧ r.text = line.text ∧
      r.syntaxArr.length = line.text.length := by
  obtain ⟨r, hr, ht, hl⟩ := update_line_syntax_ok line (by omega)
  exact ⟨r, hr, ht, by omega⟩

/-- C20, on the line "in" followed by two double quotes and "t". -/
theorem update_line_syntax_in_range_witness :
    (newLine ['i', 'n', '"', '"', 't']).syntaxArr.length =
      (newLine ['i', 'n', '"', '"', 't']).text.length ∧
    ∃ r, ( update_line_syntax (newLine ['i', 'n', '"', '"', 't'])) = some r ∧
      r.text = (newLine ['i', 'n', '"', '"', 't']).text ∧
      r.syntaxArr.length = (newLine ['i', 'n', '"', '"', 't']).text.length :=
  ⟨by decide, update_line_syntax_in_range (newLine ['i', 'n', '"', '"', 't']) (by decide)⟩

/-- C14. For every file content without NUL and carriage return, `loadFile` into an empty buffer
returns 0, no loaded line contains a line feed, and `saveFile` of the loaded buffer writes each
line followed by a single line feed, which is the content itself when it is empty or ends with
a line feed and the content plus one final line feed otherwise. -/
theorem load_then_save_roundtrip (content : List Char)
    (hclean : ∀ c ∈ content, c ≠ Char.ofNat 0 ∧ c ≠ '\r') :
    ∃ buf, loadFile [] (some content) = some (0, buf) ∧
      (∀ l ∈ buf, '\n' ∉ l.text) ∧
      saveFile buf true =
        some (if content = [] ∨ content.getLast? = some '\n' then content
              else content ++ ['\n']) := by
  obtain ⟨b, hb, hnl, hout⟩ := loadLoop_roundtrip content.length content [] (le_refl _) hclean
  refine ⟨b, ?_, hnl, ?_⟩
  · simp [loadFile, hb]
  · simp only [saveFile, if_true, hout]

/-- C14, on the content "a", line feed, "b": two lines are loaded and "a\nb\n" is written. -/
theorem load_then_save_roundtrip_witness :
    ∃ buf, loadFile [] (some ['a', '\n', 'b']) = some (0, buf) ∧
      (∀ l ∈ buf, '\n' ∉ l.text) ∧
      saveFile buf true =
        some (if ['a', '\n', 'b'] = [] ∨ ['a', '\n', 'b'].getLast? = some '\n'
              then ['a', '\n', 'b'] else ['a', '\n', 'b'] ++ ['\n']) :=
  load_then_save_roundtrip ['a', '\n', 'b'] (by decide)

/-- C18. On every line that starts with a quote `q` (double or single) and whose syntax block
has the length of the text, `update_line_syntax` returns, and with the closing quote found as
the description says (`closingQuote`, scanning the characters after the opening quote): when
it is at offset `m` after the opening quote, every index from 0 to `m + 1`, the index of the
closing quote, is String; when there is none, every index of the line is String. -/
theorem string_literal_from_first_quote (q : Char) (rest : List Char)
    (block : List SyntaxType) (hq : q = '"' ∨ q = '\'')
    (hlen : block.length = (q :: rest).length) :
    ∃ r, ( update_line_syntax { text := q :: rest, syntaxArr := block }) = some r ∧
      (∀ m, closingQuote q rest = some m →
        ∀ k, k ≤ m + 1 → r.syntaxArr[k]? = some SYNTAX_STRING) ∧
      (closingQuote q rest = none →
        ∀ k, k < (q :: rest).length → r.syntaxArr[k]? = some SYNTAX_STRING) := by
  have hq0 : q.toNat ≠ 0 := by rcases hq with h | h <;> subst h <;> decide
  have hqb : q ≠ '\\' := by rcases hq with h | h <;> subst h <;> decide
  obtain ⟨cleared, hcl, hlc, _⟩ := fillSyntax_spec (memsetInt SYNTAX_NORMAL) (q :: rest).length 0 block
    (by omega)
  simp only [Nat.cast_zero] at hcl
  have hcl1 : cleared.length = rest.length + 1 := by
    simp only [List.length_cons] at hlen
    omega
  have hstep := scanStep_open_quote (q :: rest)
    { i := 0, in_string := 0, in_multiline_comment := false, in_singleline_comment := false,
      current_word := [], syntaxArr := cleared }
    (by simp) (by simp; omega) rfl rfl rfl (by simpa using hq)
  obtain ⟨st2, hr, hl2, hw2, hc2⟩ := scanLoop_in_string (q :: rest) q hq0 hqb rest.length
    { i := 1, in_string := q.toNat, in_multiline_comment := false,
      in_singleline_comment := false, current_word := [],
      syntaxArr := cleared.set 0 SYNTAX_STRING }
    (by simp) (by simp) (by simp; omega) rfl rfl rfl rfl
    (by
      intro k hk
      have hk0 : k = 0 := by simp at hk; omega
      subst hk0
      have : 0 < cleared.length := by simp at hlen; omega
      simp [List.getElem?_set, this])
  have hloop : scanLoop (q :: rest) (q :: rest).length
      { i := 0, in_string := 0, in_multiline_comment := false, in_singleline_comment := false,
        current_word := [], syntaxArr := cleared } = some st2 := by
    simp only [List.length_cons, scanLoop, Nat.zero_lt_succ, if_true, hstep, Option.some_bind]
    simpa using hr
  obtain ⟨b, hb, hlb, hget⟩ := markKeyword_cells st2.current_word st2.current_word.length
    (q :: rest).length st2.syntaxArr hw2 (by simp at hl2 hlen ⊢; omega)
  have hfinal : ∃ r, ( update_line_syntax { text := q :: rest, syntaxArr := block }) = some r ∧
      ∀ k, k < 1 + literalEnd q rest → r.syntaxArr[k]? = some SYNTAX_STRING := by
    unfold update_line_syntax clearSyntax
    simp only [hcl, hloop, Option.some_bind]
    split_ifs with hwp
    · simp only [hb, Option.map_some']
      refine ⟨_, rfl, ?_⟩
      intro k hk
      obtain ⟨hk1, hk2⟩ := hc2 k (by simpa using hk)
      rcases hget k with h | ⟨h, _, _⟩
      · simp only []
        rw [h, hk2]
      · omega
    · refine ⟨_, rfl, ?_⟩
      intro k hk
      exact (hc2 k (by simpa using hk)).2
  obtain ⟨r, hr1, hr2⟩ := hfinal
  refine ⟨r, hr1, ?_, ?_⟩
  · intro m hm k hk
    apply hr2
    simp only [literalEnd, hm]
    omega
  · intro hn k hk
    apply hr2
    simp only [literalEnd, hn]
    simp at hk
    omega

/-- C18, on the six-character line double quote, a, backslash, double quote, b, double quote:
the closing quote is the last character and all six indices are String. -/
theorem string_literal_from_first_quote_witness :
    closingQuote '"' ['a', '\\', '"', 'b', '"'] = some 4 ∧
    ∃ r, ( update_line_syntax (newLine ['"', 'a', '\\', '"', 'b', '"'])) = some r ∧
      ∀ k, k ≤ 5 → r.syntaxArr[k]? = some SYNTAX_STRING :=
  have h := string_literal_from_first_quote '"' ['a', '\\', '"', 'b', '"']
    (List.replicate 6 SYNTAX_NORMAL) (Or.inl rfl) (by decide)
  ⟨by decide, h.elim fun r hr => ⟨r, hr.1, hr.2.1 4 (by decide)⟩⟩

/-- C17. On every line without double quote, single quote and slash, with a syntax block of
the length of the text, `update_line_syntax` returns, and the indices it classifies as Number
are exactly the number positions of the description (`NumberAt`): the digits of the maximal
runs of digits that are not immediately preceded by a letter, digit or underscore and not
immediately followed by a letter or underscore. (The characters are not required to be ASCII:
`isalpha` and `isdigit` hold for ASCII letters and digits only.) -/
theorem number_marks_exact (text : List Char) (block : List SyntaxType)
    (hclean : ∀ x ∈ text, x ≠ '"' ∧ x ≠ '\'' ∧ x ≠ '/')
    (hlen : block.length = text.length) :
    ∃ r, ( update_line_syntax { text := text, syntaxArr := block }) = some r ∧
      ∀ k, r.syntaxArr[k]? = some SYNTAX_NUMBER ↔ NumberAt text k := by
  obtain ⟨cleared, hcl, hlc, hgc⟩ := fillSyntax_spec (memsetInt SYNTAX_NORMAL) text.length 0 block
    (by omega)
  simp only [Nat.cast_zero] at hcl
  have hinv0 : NumberInv text
      { i := 0, in_string := 0, in_multiline_comment := false, in_singleline_comment := false,
        current_word := [], syntaxArr := cleared } := by
    refine ⟨Nat.zero_le _, hlc.trans hlen, rfl, rfl, rfl, by simp, ?_, ?_, ?_, ?_, ?_⟩
    · intro k hk
      simp at hk
    · intro k _ hk
      simp only []
      rw [hgc k]
      have : 0 ≤ k ∧ k < 0 + text.length := by omega
      rw [if_pos this]
      decide
    · intro k _ hk
      simp at hk
    · intro h
      simp at h
    · intro h
      simp at h
  obtain ⟨st, hloop, hinv, hiend⟩ := NumberInv_loop text hclean text.length _ (by simp) hinv0
  obtain ⟨_, hsl, _, _, _, hw, hb, _, hd, _, _⟩ := hinv
  have hout : ∀ k, text.length ≤ k → ¬ NumberAt text k := by
    intro k hk h
    obtain ⟨s, e, _, h2, h3, _⟩ := h
    omega
  obtain ⟨b, hmk, hlb, hget⟩ := markKeyword_cells st.current_word st.current_word.length
    text.length st.syntaxArr (by omega) (by omega)
  have hbase : ∀ k, st.syntaxArr[k]? = some SYNTAX_NUMBER ↔ NumberAt text k := by
    intro k
    by_cases hk : k < text.length
    · exact hb k (by omega)
    · rw [List.getElem?_eq_none (by omega)]
      exact ⟨fun h => absurd h (by decide), fun h => absurd h (hout k (by omega))⟩
  unfold update_line_syntax clearSyntax
  simp only [hcl, hloop, Option.some_bind]
  split_ifs with hwp
  · simp only [hmk, Option.map_some']
    refine ⟨_, rfl, ?_⟩
    intro k
    simp only []
    rcases hget k with hsame | ⟨hk1, hk2, hkw⟩
    · rw [hsame]
      exact hbase k
    · rw [hkw]
      obtain ⟨x, hx, hxl⟩ := hd k (by omega) (by omega)
      exact ⟨fun h => absurd h (by decide), fun h => absurd h (not_NumberAt_of_letter text k x hx hxl)⟩
  · exact ⟨_, rfl, hbase⟩

/-- C17, on the line "1a x = 42;", which has no quote and no slash. -/
theorem number_marks_exact_witness :
    (∀ x ∈ "1a x = 42;".toList, x ≠ '"' ∧ x ≠ '\'' ∧ x ≠ '/') ∧
    ∃ r, ( update_line_syntax (newLine "1a x = 42;".toList)) = some r ∧
      ∀ k, r.syntaxArr[k]? = some SYNTAX_NUMBER ↔ NumberAt "1a x = 42;".toList k :=
  ⟨by decide, number_marks_exact "1a x = 42;".toList _ (by decide) (by decide)⟩

end Muks
